import Mathlib

/-!
Shallow embedding of the sentiment-analysis core (vocabulary/feature
extraction, multinomial Naive Bayes training and prediction, evaluation)
of the muhkartal/Sentiment-Analysis repository, together with proofs of
the behavioural properties stated in its specification.

Conventions of the embedding:
* C++ `double` values are modelled as `ℚ`; the natural logarithm is an
  explicit parameter `log : ℚ → ℚ` threaded through every function that
  calls `std::log`, so every theorem holds for every interpretation of
  the logarithm (no property proved here depends on facts about `log`
  beyond those stated as hypotheses).
* `std::unordered_map` is modelled as an association list updated in
  place (`aupsert`); keys keep first-insertion order.  No theorem below
  depends on the iteration order of a map except where the C++ result is
  itself order-independent, or where a concrete counterexample fails
  under every order (noted at the theorem).
* C++ `std::vector` indexing that can go out of bounds (undefined
  behaviour) and `.at` calls that can throw are modelled with `Option`:
  `none` is "the C++ program has no defined result here".
-/

namespace Sentiment

/-- Association-list lookup, modelling `std::unordered_map::find`. -/
def alookup {α β : Type} [DecidableEq α] (k : α) : List (α × β) → Option β
  | [] => none
  | (a, b) :: t => if a = k then some b else alookup k t

/-- Association-list insert-or-update, modelling `map[k] = f (old value)`
    (`operator[]` default-constructs an absent entry, which the caller
    encodes inside `f` via the `Option`). -/
def aupsert {α β : Type} [DecidableEq α] (k : α) (f : Option β → β) :
    List (α × β) → List (α × β)
  | [] => [(k, f none)]
  | (a, b) :: t => if a = k then (a, f (some b)) :: t else (a, b) :: aupsert k f t

theorem alookup_aupsert_self {α β : Type} [DecidableEq α] (k : α) (f : Option β → β)
    (l : List (α × β)) : alookup k (aupsert k f l) = some (f (alookup k l)) := by
  induction l with
  | nil => simp [alookup, aupsert]
  | cons h t ih =>
    obtain ⟨a, b⟩ := h
    by_cases hak : a = k
    · subst hak; simp [alookup, aupsert]
    · simp [alookup, aupsert, hak, ih]

theorem alookup_aupsert_ne {α β : Type} [DecidableEq α] {k k2 : α} (f : Option β → β)
    (l : List (α × β)) (hne : k ≠ k2) :
    alookup k (aupsert k2 f l) = alookup k l := by
  induction l with
  | nil => simp [alookup, aupsert, Ne.symm hne]
  | cons h t ih =>
    obtain ⟨a, b⟩ := h
    by_cases hak : a = k2
    · subst hak
      simp [alookup, aupsert, Ne.symm hne]
    · by_cases hk : a = k
      · subst hk; simp [alookup, aupsert, hak]
      · simp [alookup, aupsert, hak, hk, ih]

/-- A fold that only touches keys from `cs` leaves other keys unchanged. -/
theorem alookup_foldl_not_mem {α β : Type} [DecidableEq α] (g : α → Option β → β)
    (cs : List α) (base : List (α × β)) {k : α} (hk : k ∉ cs) :
    alookup k (cs.foldl (fun m c => aupsert c (g c) m) base) = alookup k base := by
  induction cs generalizing base with
  | nil => rfl
  | cons c t ih =>
    have hkc : k ≠ c := fun h => hk (h ▸ List.mem_cons_self c t)
    have hkt : k ∉ t := fun h => hk (List.mem_cons_of_mem c h)
    simp only [List.foldl_cons]
    rw [ih _ hkt, alookup_aupsert_ne _ _ hkc]

/-- After upserting every key of `cs` with a value depending only on the key,
    every key of `cs` is mapped to its value. -/
theorem alookup_foldl_mem {α β : Type} [DecidableEq α] (g : α → β)
    (cs : List α) (base : List (α × β)) {k : α} (hk : k ∈ cs) :
    alookup k (cs.foldl (fun m c => aupsert c (fun _ => g c) m) base) = some (g k) := by
  induction cs generalizing base with
  | nil => cases hk
  | cons c t ih =>
    simp only [List.foldl_cons]
    by_cases hkt : k ∈ t
    · exact ih _ hkt
    · have hkc : k = c := by
        rcases List.mem_cons.mp hk with h | h
        · exact h
        · exact absurd h hkt
      subst hkc
      rw [alookup_foldl_not_mem (fun c _ => g c) t _ hkt, alookup_aupsert_self]

/-- The sentiment label enumeration of `utils.h`. -/
inductive SentimentLabel
  | POSITIVE
  | NEGATIVE
  | NEUTRAL
  | UNKNOWN
deriving DecidableEq

/-- The `FeatureVector` struct of `utils.h`: a numeric vector plus a label. -/
structure FeatureVec where
  features : List ℚ
  label : SentimentLabel
deriving DecidableEq

/-- Checked in-place `vec[i] += v` on a `std::vector`: `none` models the
    out-of-bounds (undefined-behaviour) case. -/
def incrAt : List ℚ → ℕ → ℚ → Option (List ℚ)
  | [], _, _ => none
  | h :: t, 0, v => some ((h + v) :: t)
  | h :: t, n + 1, v => (incrAt t n v).map (fun r => h :: r)

theorem incrAt_isSome_of_lt (xs : List ℚ) (i : ℕ) (v : ℚ) (h : i < xs.length) :
    ∃ ys, incrAt xs i v = some ys ∧ ys.length = xs.length := by
  induction xs generalizing i with
  | nil => simp at h
  | cons x t ih =>
    cases i with
    | zero => exact ⟨(x + v) :: t, rfl, rfl⟩
    | succ n =>
      obtain ⟨ys, hys, hlen⟩ := ih n (Nat.lt_of_succ_lt_succ h)
      exact ⟨x :: ys, by simp [incrAt, hys], by simp [hlen]⟩

/-- State of the `NaiveBayes` engine (`naive_bayes.h`).  The constructor
    `NaiveBayes::NaiveBayes(double alpha)` stores `alpha` unchanged; the
    in-class initialisers give `trained = false`, `featureCount = 0` and
    empty maps. -/
structure NBState where
  alpha : ℚ
  trained : Bool
  featureCount : ℕ
  classPriors : List (SentimentLabel × ℚ)
  logLikelihoods : List (SentimentLabel × List ℚ)
  classTotals : List (SentimentLabel × ℚ)
deriving DecidableEq

/-- `NaiveBayes::NaiveBayes(double alpha)` (naive_bayes.cpp line 8): the
    smoothing parameter is stored as supplied, with no sanitation. -/
def NaiveBayes.init (alpha : ℚ) : NBState :=
  { alpha := alpha, trained := false, featureCount := 0,
    classPriors := [], logLikelihoods := [], classTotals := [] }

/-- The inner accumulation loop of `NaiveBayes::train` (naive_bayes.cpp
    lines 38-41): for each feature index of the example,
    `logLikelihoods[label][i] += features[i]` and
    `classTotals[label] += features[i]`.  The vector write is bounds-checked
    (`none` = undefined behaviour when the example is longer than the
    vector allocated from the first example). -/
def NBaccumStep (ex : FeatureVec)
    (st : Option (List (SentimentLabel × List ℚ) × List (SentimentLabel × ℚ)))
    (i : ℕ) :
    Option (List (SentimentLabel × List ℚ) × List (SentimentLabel × ℚ)) :=
  st.bind (fun p =>
    let v := ex.features.getD i 0
    match incrAt ((alookup ex.label p.1).getD []) i v with
    | none => none
    | some vec =>
      some (aupsert ex.label (fun _ => vec) p.1,
            aupsert ex.label (fun o => o.getD 0 + v) p.2))

def NBaccumExample (ex : FeatureVec)
    (ll : List (SentimentLabel × List ℚ)) (ct : List (SentimentLabel × ℚ)) :
    Option (List (SentimentLabel × List ℚ) × List (SentimentLabel × ℚ)) :=
  (List.range ex.features.length).foldl (NBaccumStep ex) (some (ll, ct))

/-- The per-example body of the training loop of `NaiveBayes::train`
    (naive_bayes.cpp lines 28-42): bump the class count, create the
    class-specific structures on first sight of a label, then run the
    feature accumulation loop. -/
def NBtrainStep (featureCount : ℕ)
    (st : Option (List (SentimentLabel × ℕ) × List (SentimentLabel × List ℚ) ×
                  List (SentimentLabel × ℚ)))
    (ex : FeatureVec) :
    Option (List (SentimentLabel × ℕ) × List (SentimentLabel × List ℚ) ×
            List (SentimentLabel × ℚ)) :=
  st.bind (fun acc =>
    let cc := aupsert ex.label (fun o => o.getD 0 + 1) acc.1
    let llct :=
      if (alookup ex.label acc.2.1).isSome then (acc.2.1, acc.2.2)
      else (aupsert ex.label (fun _ => List.replicate featureCount (0 : ℚ)) acc.2.1,
            aupsert ex.label (fun _ => (0 : ℚ)) acc.2.2)
    (NBaccumExample ex llct.1 llct.2).map (fun p => (cc, p.1, p.2)))

/-- The finishing phase of `NaiveBayes::train` (naive_bayes.cpp lines
    44-67): priors `count / totalExamples` written over the (uncleared!)
    existing `classPriors`, then the likelihood table smoothed and logged
    in place. -/
def NBfinish (log : ℚ → ℚ) (s : NBState) (data : List FeatureVec) (featureCount : ℕ)
    (cc : List (SentimentLabel × ℕ)) (ll : List (SentimentLabel × List ℚ))
    (ct : List (SentimentLabel × ℚ)) : NBState :=
  let total : ℚ := data.length
  let priors := cc.foldl
    (fun m p => aupsert p.1 (fun _ => (p.2 : ℚ) / total) m) s.classPriors
  let ll2 := ll.map (fun p =>
    (p.1, p.2.map (fun w =>
      log ((w + s.alpha) / ((alookup p.1 ct).getD 0 + s.alpha * featureCount)))))
  { s with
      trained := true, featureCount := featureCount, classPriors := priors,
      logLikelihoods := ll2, classTotals := ct }

/-- `NaiveBayes::train` (naive_bayes.cpp lines 11-68).  Returns
    `some (false, s)` when the training set is empty (the function returns
    `false` leaving the state untouched), `some (true, s2)` on success and
    `none` when an out-of-bounds vector write occurs (undefined behaviour).

    Faithfulness notes: `logLikelihoods` and `classTotals` are cleared at
    the start (lines 24-25) but `classPriors` is NOT cleared — priors of
    labels absent from the new training data survive from an earlier
    training run.  Priors are stored as plain probabilities
    `count / totalExamples` (line 47); the logarithm is applied to them
    only inside `predict`.  The likelihood table is smoothed and logged in
    place (lines 51-60). -/
def NaiveBayes.train (log : ℚ → ℚ) (s : NBState) (data : List FeatureVec) :
    Option (Bool × NBState) :=
  if data.isEmpty then some (false, s) else
  match data.foldl
      (NBtrainStep (data.headD ⟨[], SentimentLabel.UNKNOWN⟩).features.length)
      (some (([] : List (SentimentLabel × ℕ)), ([] : List (SentimentLabel × List ℚ)),
             ([] : List (SentimentLabel × ℚ)))) with
  | none => none
  | some (cc, ll, ct) =>
    some (true,
      NBfinish log s data (data.headD ⟨[], SentimentLabel.UNKNOWN⟩).features.length
        cc ll ct)

/-- The per-class score loop of `NaiveBayes::predict` (naive_bayes.cpp
    lines 86-95): start from `log(prior)` and, for every feature index with
    a strictly positive input value, add
    `features[i] * logLikelihoods.at(label)[i]`.  `none` models the
    `std::out_of_range` exception of `.at` on a missing label (and an
    out-of-bounds vector read). -/
def NBscore (log : ℚ → ℚ) (s : NBState) (features : List ℚ)
    (lbl : SentimentLabel) (prior : ℚ) : Option ℚ :=
  (List.range features.length).foldl
    (fun acc i =>
      acc.bind (fun sc =>
        let v := features.getD i 0
        if 0 < v then
          match alookup lbl s.logLikelihoods with
          | none => none
          | some vec =>
            match vec.get? i with
            | none => none
            | some lk => some (sc + v * lk)
        else some sc))
    (some (log prior))

/-- `NaiveBayes::predict` (naive_bayes.cpp lines 70-105): returns `UNKNOWN`
    when untrained or on a length mismatch, otherwise scans `classPriors`
    keeping the strictly best score (`maxLogProb` starts at `-∞`, modelled
    by `none`).  `none` overall models the exception/UB cases inside the
    scoring loop. -/
def NaiveBayes.predict (log : ℚ → ℚ) (s : NBState) (features : List ℚ) :
    Option SentimentLabel :=
  if s.trained = false then some SentimentLabel.UNKNOWN else
  if features.length ≠ s.featureCount then some SentimentLabel.UNKNOWN else
  (s.classPriors.foldl
    (fun acc cp =>
      acc.bind (fun best =>
        (NBscore log s features cp.1 cp.2).map (fun sc =>
          match best.1 with
          | none => (some sc, cp.1)
          | some m => if sc > m then (some sc, cp.1) else best)))
    (some ((none : Option ℚ), SentimentLabel.UNKNOWN))).map (fun b => b.2)

/-- Every likelihood vector stored in the table has length `n`. -/
def AllVecLen (n : ℕ) (ll : List (SentimentLabel × List ℚ)) : Prop :=
  ∀ lbl vec, alookup lbl ll = some vec → vec.length = n

theorem NBaccum_fold_some (ex : FeatureVec) (n : ℕ) (idxs : List ℕ)
    (hidx : ∀ i ∈ idxs, i < n) :
    ∀ ll ct, AllVecLen n ll → (alookup ex.label ll).isSome →
    ∃ ll2 ct2, idxs.foldl (NBaccumStep ex) (some (ll, ct)) = some (ll2, ct2) ∧
      AllVecLen n ll2 ∧ (alookup ex.label ll2).isSome := by
  induction idxs with
  | nil =>
    intro ll ct hlen hp
    exact ⟨ll, ct, rfl, hlen, hp⟩
  | cons i t ih =>
    intro ll ct hlen hp
    obtain ⟨v0, hv0⟩ := Option.isSome_iff_exists.mp hp
    have hv0len : v0.length = n := hlen _ _ hv0
    have hi : i < v0.length := by
      rw [hv0len]; exact hidx i (List.mem_cons_self _ _)
    obtain ⟨vec, hvec, hveclen⟩ := incrAt_isSome_of_lt v0 i (ex.features.getD i 0) hi
    have hvec2 : incrAt v0 i (ex.features[i]?.getD 0) = some vec := by
      rw [← List.getD_eq_getElem?_getD]
      exact hvec
    have hstep : NBaccumStep ex (some (ll, ct)) i =
        some (aupsert ex.label (fun _ => vec) ll,
              aupsert ex.label (fun o => o.getD 0 + ex.features.getD i 0) ct) := by
      simp [NBaccumStep, hv0, hvec, hvec2]
    have hlen2 : AllVecLen n (aupsert ex.label (fun _ => vec) ll) := by
      intro lbl w hw
      by_cases hlbl : lbl = ex.label
      · subst hlbl
        rw [alookup_aupsert_self] at hw
        cases hw
        rw [hveclen, hv0len]
      · rw [alookup_aupsert_ne _ _ hlbl] at hw
        exact hlen _ _ hw
    have hp2 : (alookup ex.label (aupsert ex.label (fun _ => vec) ll)).isSome := by
      rw [alookup_aupsert_self]; rfl
    obtain ⟨ll2, ct2, heq, h1, h2⟩ :=
      ih (fun j hj => hidx j (List.mem_cons_of_mem _ hj)) _ _ hlen2 hp2
    exact ⟨ll2, ct2, by rw [List.foldl_cons, hstep]; exact heq, h1, h2⟩

theorem NBtrain_fold_some (fc : ℕ) (data : List FeatureVec)
    (hlen : ∀ ex ∈ data, ex.features.length = fc) :
    ∀ cc ll ct, AllVecLen fc ll →
    ∃ cc2 ll2 ct2,
      data.foldl (NBtrainStep fc) (some (cc, ll, ct)) = some (cc2, ll2, ct2) ∧
      AllVecLen fc ll2 := by
  induction data with
  | nil =>
    intro cc ll ct h
    exact ⟨cc, ll, ct, rfl, h⟩
  | cons ex t ih =>
    intro cc ll ct h
    have hex : ex.features.length = fc := hlen ex (List.mem_cons_self _ _)
    have hidx : ∀ i ∈ List.range ex.features.length, i < fc := by
      intro i hi
      rw [← hex]
      exact List.mem_range.mp hi
    by_cases hpres : (alookup ex.label ll).isSome
    · obtain ⟨ll2, ct2, heq, hinv, _⟩ :=
        NBaccum_fold_some ex fc (List.range ex.features.length) hidx ll ct h hpres
      have haccum : NBaccumExample ex ll ct = some (ll2, ct2) := heq
      have hstep : NBtrainStep fc (some (cc, ll, ct)) ex =
          some (aupsert ex.label (fun o => o.getD 0 + 1) cc, ll2, ct2) := by
        simp [NBtrainStep, hpres, haccum]
      obtain ⟨cc3, ll3, ct3, heq3, hinv3⟩ :=
        ih (fun e he => hlen e (List.mem_cons_of_mem _ he)) _ _ _ hinv
      exact ⟨cc3, ll3, ct3, by rw [List.foldl_cons, hstep]; exact heq3, hinv3⟩
    · have hinv1 : AllVecLen fc
          (aupsert ex.label (fun _ => List.replicate fc (0 : ℚ)) ll) := by
        intro lbl w hw
        by_cases hlbl : lbl = ex.label
        · subst hlbl
          rw [alookup_aupsert_self] at hw
          cases hw
          exact List.length_replicate _ _
        · rw [alookup_aupsert_ne _ _ hlbl] at hw
          exact h _ _ hw
      have hpres1 :
          (alookup ex.label
            (aupsert ex.label (fun _ => List.replicate fc (0 : ℚ)) ll)).isSome := by
        rw [alookup_aupsert_self]; rfl
      obtain ⟨ll2, ct2, heq, hinv, _⟩ :=
        NBaccum_fold_some ex fc (List.range ex.features.length) hidx _ _ hinv1 hpres1
      have haccum : NBaccumExample ex
          (aupsert ex.label (fun _ => List.replicate fc (0 : ℚ)) ll)
          (aupsert ex.label (fun _ => (0 : ℚ)) ct) = some (ll2, ct2) := heq
      have hstep : NBtrainStep fc (some (cc, ll, ct)) ex =
          some (aupsert ex.label (fun o => o.getD 0 + 1) cc, ll2, ct2) := by
        simp [NBtrainStep, hpres, haccum]
      obtain ⟨cc3, ll3, ct3, heq3, hinv3⟩ :=
        ih (fun e he => hlen e (List.mem_cons_of_mem _ he)) _ _ _ hinv
      exact ⟨cc3, ll3, ct3, by rw [List.foldl_cons, hstep]; exact heq3, hinv3⟩

/-- C10: on a non-empty training set in which every feature vector has the
    same length as the first one, every index used by `NaiveBayes::train`
    to read the example vectors and to accumulate into the per-class
    likelihood vectors is within bounds: in the embedding, the
    bounds-checked training function returns a value (the `none` branch
    that models an out-of-bounds write is unreachable). -/
theorem naiveBayes_train_no_oob (log : ℚ → ℚ) (s : NBState) (data : List FeatureVec)
    (hne : data ≠ [])
    (hlen : ∀ ex ∈ data, ex.features.length =
      (data.headD ⟨[], SentimentLabel.UNKNOWN⟩).features.length) :
    (NaiveBayes.train log s data).isSome := by
  obtain ⟨cc2, ll2, ct2, heq, _⟩ :=
    NBtrain_fold_some (data.headD ⟨[], SentimentLabel.UNKNOWN⟩).features.length
      data hlen [] [] [] (by intro lbl vec hv; cases hv)
  unfold NaiveBayes.train
  rw [if_neg (by simpa [List.isEmpty_iff] using hne), heq]
  rfl

theorem naiveBayes_train_no_oob_witness :
    ([⟨[1, 2], SentimentLabel.POSITIVE⟩, ⟨[3, 0], SentimentLabel.NEGATIVE⟩]
        ≠ ([] : List FeatureVec)) ∧
    (∀ ex ∈ [(⟨[1, 2], SentimentLabel.POSITIVE⟩ : FeatureVec),
             ⟨[3, 0], SentimentLabel.NEGATIVE⟩],
      ex.features.length =
        (([(⟨[1, 2], SentimentLabel.POSITIVE⟩ : FeatureVec),
           ⟨[3, 0], SentimentLabel.NEGATIVE⟩].headD
            ⟨[], SentimentLabel.UNKNOWN⟩)).features.length) ∧
    (NaiveBayes.train (fun x => x) (NaiveBayes.init 1)
      [⟨[1, 2], SentimentLabel.POSITIVE⟩,
       ⟨[3, 0], SentimentLabel.NEGATIVE⟩]).isSome := by
  refine ⟨by simp, by decide, ?_⟩
  exact naiveBayes_train_no_oob (fun x => x) (NaiveBayes.init 1) _ (by simp) (by decide)

/-- C1 (code bug): retraining `NaiveBayes` clears `logLikelihoods` and
    `classTotals` but not `classPriors` (naive_bayes.cpp lines 24-25), so a
    class of the first training that does not occur in the second survives
    in `classPriors`; a subsequent `predict` then calls
    `logLikelihoods.at(stale class)` and throws `std::out_of_range`
    (modelled by `none`) instead of behaving as if only the second training
    had occurred.  The failing lookup happens for every iteration order of
    the `classPriors` map, so the association-list order fixed by the
    embedding is irrelevant.  Training from a fresh engine on the second
    set alone predicts `NEGATIVE` on the same input. -/
theorem naiveBayes_retrain_stale_prior_bug :
    ∃ s1 s2 sf : NBState,
      NaiveBayes.train (fun x => x) (NaiveBayes.init 1)
          [⟨[1], SentimentLabel.POSITIVE⟩] = some (true, s1) ∧
      NaiveBayes.train (fun x => x) s1 [⟨[1], SentimentLabel.NEGATIVE⟩]
          = some (true, s2) ∧
      alookup SentimentLabel.POSITIVE s2.classPriors = some 1 ∧
      NaiveBayes.predict (fun x => x) s2 [1] = none ∧
      NaiveBayes.train (fun x => x) (NaiveBayes.init 1)
          [⟨[1], SentimentLabel.NEGATIVE⟩] = some (true, sf) ∧
      alookup SentimentLabel.POSITIVE sf.classPriors = none ∧
      NaiveBayes.predict (fun x => x) sf [1] = some SentimentLabel.NEGATIVE := by
  refine ⟨{ alpha := 1, trained := true, featureCount := 1,
            classPriors := [(SentimentLabel.POSITIVE, 1)],
            logLikelihoods := [(SentimentLabel.POSITIVE, [1])],
            classTotals := [(SentimentLabel.POSITIVE, 1)] },
          { alpha := 1, trained := true, featureCount := 1,
            classPriors := [(SentimentLabel.POSITIVE, 1), (SentimentLabel.NEGATIVE, 1)],
            logLikelihoods := [(SentimentLabel.NEGATIVE, [1])],
            classTotals := [(SentimentLabel.NEGATIVE, 1)] },
          { alpha := 1, trained := true, featureCount := 1,
            classPriors := [(SentimentLabel.NEGATIVE, 1)],
            logLikelihoods := [(SentimentLabel.NEGATIVE, [1])],
            classTotals := [(SentimentLabel.NEGATIVE, 1)] }, ?_, ?_, ?_, ?_, ?_, ?_, ?_⟩
  · norm_num [NaiveBayes.train, NBtrainStep, NBaccumExample, NBaccumStep, NBfinish,
      NaiveBayes.init, alookup, aupsert, incrAt, List.range, List.range.loop]
  · have hpn : SentimentLabel.POSITIVE ≠ SentimentLabel.NEGATIVE := by decide
    have hnp : SentimentLabel.NEGATIVE ≠ SentimentLabel.POSITIVE := by decide
    norm_num [NaiveBayes.train, NBtrainStep, NBaccumExample, NBaccumStep, NBfinish,
      NaiveBayes.init, alookup, aupsert, incrAt, hpn, hnp, List.range, List.range.loop]
  · decide
  · have hnp : SentimentLabel.NEGATIVE ≠ SentimentLabel.POSITIVE := by decide
    norm_num [NaiveBayes.predict, NBscore, alookup, hnp, List.range, List.range.loop,
      List.get?]
  · norm_num [NaiveBayes.train, NBtrainStep, NBaccumExample, NBaccumStep, NBfinish,
      NaiveBayes.init, alookup, aupsert, incrAt, List.range, List.range.loop]
  · decide
  · norm_num [NaiveBayes.predict, NBscore, alookup, List.range, List.range.loop,
      List.get?]

/-- Errors of the `NaiveBayesClassifier` family: the thrown
    `std::runtime_error`s of NaiveBayesClassifier.cpp, plus `mapKeyAbsent`
    for the `std::out_of_range` that `.at` throws on a key that is absent
    (only reachable from states no successful training produces). -/
inductive NBCError
  | invalidDataSize
  | zeroVocabulary
  | notTrained
  | dimensionMismatch
  | mapKeyAbsent
deriving DecidableEq

/-- State of `NaiveBayesClassifier` (NaiveBayesClassifier.h, lines 56-68). -/
structure NBCState where
  alpha : ℚ
  vocabulary_size : ℕ
  total_docs_trained : ℕ
  classes : List String
  class_priors : List (String × ℚ)
  log_likelihoods : List (String × List (ℕ × ℚ))
  total_words_in_class : List (String × ℚ)
  default_log_likelihood : List (String × ℚ)
deriving DecidableEq

/-- `NaiveBayesClassifier::NaiveBayesClassifier(double alpha)`
    (NaiveBayesClassifier.cpp lines 10-16): a non-positive smoothing
    factor is replaced by `1.0` at construction time; construction never
    fails. -/
def NBC.init (alpha : ℚ) : NBCState :=
  { alpha := if alpha ≤ 0 then 1 else alpha, vocabulary_size := 0,
    total_docs_trained := 0, classes := [], class_priors := [],
    log_likelihoods := [], total_words_in_class := [],
    default_log_likelihood := [] }

/-- Ordered insertion without duplicates: the effect of
    `std::set<std::string>::insert`, so that iterating the set yields the
    distinct labels in lexicographic order. -/
def insertSorted (x : String) : List String → List String
  | [] => [x]
  | y :: t =>
    if x = y then y :: t
    else if x < y then x :: y :: t
    else y :: insertSorted x t

/-- The two assignments `NaiveBayesClassifier::train` performs before any
    validation (NaiveBayesClassifier.cpp lines 22-23); they survive even
    when the function then throws. -/
def NBC.preState (s : NBCState) (features : List (List ℚ)) (vocab_size : ℕ) :
    NBCState :=
  { s with vocabulary_size := vocab_size, total_docs_trained := features.length }

/-- Body of the word-count loop of `NaiveBayesClassifier::train`, step 2
    (NaiveBayesClassifier.cpp lines 59-65): for each word index of the
    document, when its count is strictly positive add it to
    `word_counts_per_class[label][word_index]` and to
    `total_words_in_class_[label]`. -/
def NBCdocStep (f : List ℚ) (lb : String)
    (acc : List (String × List (ℕ × ℚ)) × List (String × ℚ)) (wi : ℕ) :
    List (String × List (ℕ × ℚ)) × List (String × ℚ) :=
  let count := f.getD wi 0
  if 0 < count then
    (aupsert lb (fun o => aupsert wi (fun o2 => o2.getD 0 + count) (o.getD [])) acc.1,
     aupsert lb (fun o => o.getD 0 + count) acc.2)
  else acc

/-- One document of step 2 of `NaiveBayesClassifier::train`
    (NaiveBayesClassifier.cpp lines 54-66). -/
def NBCprocessDoc (acc : List (String × List (ℕ × ℚ)) × List (String × ℚ))
    (fl : List ℚ × String) :
    List (String × List (ℕ × ℚ)) × List (String × ℚ) :=
  (List.range fl.1.length).foldl (NBCdocStep fl.1 fl.2) acc

/-- One class of step 3 of `NaiveBayesClassifier::train`
    (NaiveBayesClassifier.cpp lines 79-90): write
    `log((count + alpha) / class_denominator[cls])` into
    `log_likelihoods_[cls][word_index]` for every word seen with that
    class, where `class_denominator[cls]` is
    `total_words_in_class_[cls] + alpha * V`. -/
def NBCliklStep (log : ℚ → ℚ) (alpha : ℚ) (V : ℕ) (twic : List (String × ℚ))
    (m : List (String × List (ℕ × ℚ))) (cw : String × List (ℕ × ℚ)) :
    List (String × List (ℕ × ℚ)) :=
  cw.2.foldl
    (fun m2 ic =>
      aupsert cw.1
        (fun o =>
          aupsert ic.1
            (fun _ =>
              log ((ic.2 + alpha) / ((alookup cw.1 twic).getD 0 + alpha * (V : ℚ))))
            (o.getD []))
        m2)
    m

/-- The post-validation part of `NaiveBayesClassifier::train`
    (NaiveBayesClassifier.cpp lines 32-93).  The C++ per-class loop of
    step 1 (lines 42-47) writes three independent maps; it is rendered as
    one fold per map over the same `classes` list.  None of the five maps
    is cleared first: entries of classes absent from the new training data
    survive (but `classes_` is reassigned wholesale, and only it drives
    `predict`). -/
def NBC.trainCore (log : ℚ → ℚ) (s : NBCState) (features : List (List ℚ))
    (labels : List String) (vocab_size : ℕ) : NBCState :=
  let class_counts := labels.foldl
    (fun m l => aupsert l (fun o => o.getD 0 + 1) m) ([] : List (String × ℕ))
  let classes := labels.foldl (fun cs l => insertSorted l cs) []
  let priors := classes.foldl
    (fun m c =>
      aupsert c
        (fun _ =>
          log ((((alookup c class_counts).getD 0 : ℕ) : ℚ) / (features.length : ℚ)))
        m)
    s.class_priors
  let twic0 := classes.foldl
    (fun m c => aupsert c (fun _ => (0 : ℚ)) m) s.total_words_in_class
  let ll0 := classes.foldl
    (fun m c => aupsert c (fun _ => ([] : List (ℕ × ℚ))) m) s.log_likelihoods
  let step2 := (features.zip labels).foldl NBCprocessDoc
    (([] : List (String × List (ℕ × ℚ))), twic0)
  let defaults := classes.foldl
    (fun m c =>
      aupsert c
        (fun _ =>
          log (s.alpha / ((alookup c step2.2).getD 0 + s.alpha * (vocab_size : ℚ))))
        m)
    s.default_log_likelihood
  let ll := step2.1.foldl (NBCliklStep log s.alpha vocab_size step2.2) ll0
  { NBC.preState s features vocab_size with
      classes := classes, class_priors := priors,
      total_words_in_class := step2.2, default_log_likelihood := defaults,
      log_likelihoods := ll }

/-- `NaiveBayesClassifier::train` (NaiveBayesClassifier.cpp lines 18-93).
    The result pairs the thrown error (if any) with the object state after
    the call; the two pre-validation assignments are visible even in the
    error cases.  There is no validation of the individual feature-vector
    lengths against `vocab_size`. -/
def NBC.train (log : ℚ → ℚ) (s : NBCState) (features : List (List ℚ))
    (labels : List String) (vocab_size : ℕ) : Option NBCError × NBCState :=
  if features.length = 0 ∨ features.length ≠ labels.length then
    (some NBCError.invalidDataSize, NBC.preState s features vocab_size)
  else if vocab_size = 0 then
    (some NBCError.zeroVocabulary, NBC.preState s features vocab_size)
  else
    (none, NBC.trainCore log s features labels vocab_size)

/-- The likelihood lookup of `NaiveBayesClassifier::predict`
    (NaiveBayesClassifier.cpp lines 120-136): the explicit per-word entry
    when the class has one, otherwise `default_log_likelihood_.at(cls)`
    (whose `.at` may throw, modelled by `none`). -/
def NBC.lookupLik (s : NBCState) (cls : String) (wi : ℕ) : Option ℚ :=
  match alookup cls s.log_likelihoods with
  | some m =>
    match alookup wi m with
    | some v => some v
    | none => alookup cls s.default_log_likelihood
  | none => alookup cls s.default_log_likelihood

/-- Body of the scoring loop of `NaiveBayesClassifier::predict`
    (NaiveBayesClassifier.cpp lines 117-140): words with a strictly
    positive count contribute `count * logLikelihood`. -/
def NBC.scoreStep (s : NBCState) (v : List ℚ) (cls : String)
    (acc : Option ℚ) (wi : ℕ) : Option ℚ :=
  acc.bind (fun sc =>
    let wc := v.getD wi 0
    if 0 < wc then (NBC.lookupLik s cls wi).map (fun lk => sc + wc * lk)
    else some sc)

/-- Per-class posterior of `NaiveBayesClassifier::predict`: start from
    `class_priors_.at(cls)` (`.at` may throw) and run the scoring loop. -/
def NBC.score (s : NBCState) (v : List ℚ) (cls : String) : Option ℚ :=
  (alookup cls s.class_priors).bind (fun pr =>
    (List.range v.length).foldl (NBC.scoreStep s v cls) (some pr))

/-- The best-class tracking of `NaiveBayesClassifier::predict`
    (NaiveBayesClassifier.cpp lines 142-146): `max_log_prob` starts at
    `-∞` (modelled by the inner `none`) and is replaced only on a strictly
    greater score. -/
def NBC.predictStep (s : NBCState) (v : List ℚ)
    (acc : Option (Option (ℚ × String))) (cls : String) :
    Option (Option (ℚ × String)) :=
  acc.bind (fun best =>
    (NBC.score s v cls).map (fun sc =>
      match best with
      | none => some (sc, cls)
      | some b => if sc > b.1 then some (sc, cls) else some b))

/-- `NaiveBayesClassifier::predict` (NaiveBayesClassifier.cpp lines
    96-156): throws `notTrained` when the class list is empty,
    `dimensionMismatch` when the input length differs from
    `vocabulary_size_`, otherwise scans `classes_` for the best score.
    The final fallback (lines 151-153) returns `classes_[0]` when no class
    was ever assigned, which cannot happen once the class list is
    non-empty. -/
def NBC.predict (s : NBCState) (v : List ℚ) : Except NBCError String :=
  if s.classes.isEmpty then Except.error NBCError.notTrained
  else if v.length ≠ s.vocabulary_size then Except.error NBCError.dimensionMismatch
  else
    match s.classes.foldl (NBC.predictStep s v) (some none) with
    | none => Except.error NBCError.mapKeyAbsent
    | some none => Except.ok (s.classes.headD "")
    | some (some b) => Except.ok b.2

/-- C3 counterexample: the claim quantifies over every construction of the
    Naive Bayes engine, but the `NaiveBayes` constructor (naive_bayes.cpp
    line 8) performs no sanitation: constructed with `alpha = 0`, training
    on the single document `[1, 0]` stores the likelihood table obtained
    with smoothing 0 (here, with the identity in place of `log`, the
    smoothed probabilities `1` and `0`), not the `alpha = 1` table
    (`2/3` and `1/3`), so the non-positive value is used in the likelihood
    computation. -/
theorem naiveBayes_alpha_zero_differs_from_one :
    NaiveBayes.train (fun x => x) (NaiveBayes.init 0)
        [⟨[1, 0], SentimentLabel.POSITIVE⟩]
      ≠ NaiveBayes.train (fun x => x) (NaiveBayes.init 1)
        [⟨[1, 0], SentimentLabel.POSITIVE⟩] := by
  norm_num [NaiveBayes.train, NBtrainStep, NBaccumExample, NBaccumStep, NBfinish,
    NaiveBayes.init, alookup, aupsert, incrAt, List.range, List.range.loop]

/-- C3 amended: only the `NaiveBayesClassifier` constructor sanitizes a
    non-positive smoothing parameter — its construction state with
    `alpha ≤ 0` is identical to the `alpha = 1` state, so every subsequent
    behaviour agrees, and construction never fails; the `NaiveBayes`
    constructor stores the supplied non-positive value unchanged (and
    training then uses it, see the counterexample). -/
theorem nbc_alpha_sanitized_naiveBayes_not (alpha : ℚ) (h : alpha ≤ 0) :
    NBC.init alpha = NBC.init 1 ∧ (NaiveBayes.init alpha).alpha = alpha := by
  constructor
  · simp [NBC.init, h]
  · rfl

theorem nbc_alpha_sanitized_naiveBayes_not_witness :
    ((-2 : ℚ) ≤ 0) ∧
    (NBC.init (-2) = NBC.init 1 ∧ (NaiveBayes.init (-2)).alpha = -2) :=
  ⟨by norm_num, nbc_alpha_sanitized_naiveBayes_not (-2) (by norm_num)⟩

/-- C2 counterexample: `NaiveBayesClassifier::train` does not validate the
    individual feature-vector lengths against the supplied vocabulary
    size: a training call whose only feature vector has length 2 with
    `vocab_size = 3` succeeds (no error is produced), although the claim
    requires it to fail with `InvalidInput`. -/
theorem nbc_train_accepts_wrong_vector_length :
    (NBC.train (fun x => x) (NBC.init 1) [[1, 1]] ["pos"] 3).1 = none ∧
    ¬ ([(1 : ℚ), 1].length = 3) := by
  constructor
  · norm_num [NBC.train]
  · norm_num

/-- C2 amended: `NaiveBayesClassifier::train` fails (throws) if and only
    if the training set is empty, or the numbers of feature vectors and of
    labels disagree, or the vocabulary size is 0; the lengths of the
    individual feature vectors are not checked.  On failure the class list
    (the trained-state witness that `predict` consults) is unchanged,
    although the two pre-validation assignments to `vocabulary_size_` and
    `total_docs_trained_` do survive. -/
theorem nbc_train_error_iff (log : ℚ → ℚ) (s : NBCState) (features : List (List ℚ))
    (labels : List String) (V : ℕ) :
    ((NBC.train log s features labels V).1.isSome ↔
      (features = [] ∨ features.length ≠ labels.length ∨ V = 0)) ∧
    ((NBC.train log s features labels V).1.isSome →
      (NBC.train log s features labels V).2.classes = s.classes) := by
  unfold NBC.train
  by_cases h1 : features.length = 0 ∨ features.length ≠ labels.length
  · rw [if_pos h1]
    refine ⟨?_, fun _ => rfl⟩
    simp only [Option.isSome_some, true_iff]
    rcases h1 with h | h
    · exact Or.inl (List.length_eq_zero.mp h)
    · exact Or.inr (Or.inl h)
  · rw [if_neg h1]
    push_neg at h1
    by_cases h2 : V = 0
    · rw [if_pos h2]
      exact ⟨by simp [h2], fun _ => rfl⟩
    · rw [if_neg h2]
      refine ⟨?_, by simp⟩
      simp only [Option.isSome_none, Bool.false_eq_true, false_iff]
      push_neg
      exact ⟨fun hf => h1.1 (by simp [hf]), h1.2, h2⟩

theorem nbc_train_error_iff_witness :
    ((NBC.train (fun x => x) (NBC.init 1) [] [] 5).1.isSome ∧
     (NBC.train (fun x => x) (NBC.init 1) [] [] 5).2.classes = (NBC.init 1).classes) := by
  have h := nbc_train_error_iff (fun x => x) (NBC.init 1) [] [] 5
  have herr : (NBC.train (fun x => x) (NBC.init 1) [] [] 5).1.isSome :=
    h.1.mpr (Or.inl rfl)
  exact ⟨herr, h.2 herr⟩

theorem aupsert_ne_nil {α β : Type} [DecidableEq α] (k : α) (f : Option β → β)
    (l : List (α × β)) : aupsert k f l ≠ [] := by
  cases l with
  | nil => simp [aupsert]
  | cons h t =>
    obtain ⟨a, b⟩ := h
    by_cases hak : a = k <;> simp [aupsert, hak]

theorem foldl_ne_nil {A B : Type} (step : List A → B → List A)
    (hs : ∀ m x, m ≠ [] → step m x ≠ []) :
    ∀ (l : List B) (m : List A), m ≠ [] → l.foldl step m ≠ [] := by
  intro l
  induction l with
  | nil => intro m hm; exact hm
  | cons x t ih => intro m hm; exact ih _ (hs m x hm)

/-- The `EvaluationMetrics` struct of `utils.h`; its `recall` field is
    spelled `recallM` because `recall` is a reserved word in this Lean
    environment. -/
structure EvaluationMetrics where
  accuracy : ℚ
  precision : ℚ
  recallM : ℚ
  f1Score : ℚ
deriving DecidableEq

/-- The key-initialisation loop of `Evaluator::evaluate` (evaluator.cpp
    lines 21-25): every true label of the validation set gets an (empty)
    confusion-matrix row. -/
def Evaluator.buildKeys (data : List FeatureVec) :
    List (SentimentLabel × List (SentimentLabel × ℕ)) :=
  data.foldl
    (fun m ex =>
      if (alookup ex.label m).isSome then m
      else aupsert ex.label (fun _ => []) m)
    []

/-- The prediction loop of `Evaluator::evaluate` (evaluator.cpp lines
    28-31): `confusionMatrix[trueLabel][predicted]++`.  The model's
    `predict` is the `pf` parameter (the `Evaluator` holds a reference to
    an abstract `Model`). -/
def Evaluator.fillCM (pf : List ℚ → SentimentLabel) (data : List FeatureVec)
    (m0 : List (SentimentLabel × List (SentimentLabel × ℕ))) :
    List (SentimentLabel × List (SentimentLabel × ℕ)) :=
  data.foldl
    (fun m ex =>
      aupsert ex.label
        (fun o => aupsert (pf ex.features) (fun o2 => o2.getD 0 + 1) (o.getD []))
        m)
    m0

/-- The confusion matrix `Evaluator::evaluate` builds for a validation
    set. -/
def Evaluator.confusion (pf : List ℚ → SentimentLabel) (data : List FeatureVec) :
    List (SentimentLabel × List (SentimentLabel × ℕ)) :=
  Evaluator.fillCM pf data (Evaluator.buildKeys data)

/-- `Evaluator::computePrecision` (evaluator.cpp lines 121-144):
    `TP/(TP+FP)` over the whole matrix, or `0.0` — never NaN — when the
    label was never predicted. -/
def Evaluator.computePrecision
    (cm : List (SentimentLabel × List (SentimentLabel × ℕ)))
    (label : SentimentLabel) : ℚ :=
  let tpfp := cm.foldl
    (fun (acc : ℕ × ℕ) tl =>
      tl.2.foldl
        (fun acc2 pl =>
          if pl.1 = label then
            if tl.1 = label then (acc2.1 + pl.2, acc2.2)
            else (acc2.1, acc2.2 + pl.2)
          else acc2)
        acc)
    (0, 0)
  if 0 < tpfp.1 + tpfp.2 then (tpfp.1 : ℚ) / ((tpfp.1 : ℚ) + (tpfp.2 : ℚ)) else 0

/-- `Evaluator::computeRecall` (evaluator.cpp lines 146-168): `TP/(TP+FN)`
    over the label's row, or `0.0` — never NaN — when the row is absent or
    empty. -/
def Evaluator.computeRecall
    (cm : List (SentimentLabel × List (SentimentLabel × ℕ)))
    (label : SentimentLabel) : ℚ :=
  match alookup label cm with
  | none => 0
  | some row =>
    let tpfn := row.foldl
      (fun (acc : ℕ × ℕ) pl =>
        if pl.1 = label then (acc.1 + pl.2, acc.2) else (acc.1, acc.2 + pl.2))
      (0, 0)
    if 0 < tpfn.1 + tpfn.2 then (tpfn.1 : ℚ) / ((tpfn.1 : ℚ) + (tpfn.2 : ℚ)) else 0

/-- `Evaluator::computeAccuracy` (evaluator.cpp lines 178-198). -/
def Evaluator.computeAccuracy
    (cm : List (SentimentLabel × List (SentimentLabel × ℕ))) : ℚ :=
  let ct := cm.foldl
    (fun (acc : ℕ × ℕ) tl =>
      tl.2.foldl
        (fun a2 pl =>
          (if tl.1 = pl.1 then a2.1 + pl.2 else a2.1, a2.2 + pl.2))
        acc)
    (0, 0)
  if 0 < ct.2 then (ct.1 : ℚ) / (ct.2 : ℚ) else 0

/-- `Evaluator::computeF1` (evaluator.cpp lines 170-176): a single
    harmonic mean of the two already macro-averaged inputs. -/
def Evaluator.computeF1 (p r : ℚ) : ℚ :=
  if 0 < p + r then 2 * (p * r) / (p + r) else 0

/-- The per-label summation loop of `Evaluator::evaluate` (evaluator.cpp
    lines 35-49): `(precisionSum, recallSum, labelCount)`.  The C++ loop
    guards with `!isnan(precision) && !isnan(recall)`; since
    `computePrecision` and `computeRecall` return `0.0` on a zero
    denominator and a finite ratio otherwise, the guard always holds and
    every label of the matrix is summed and counted — labels with a
    degenerate denominator contribute `0` to the sum and `1` to
    `labelCount`, they are not excluded. -/
def Evaluator.sumsOf (pf : List ℚ → SentimentLabel) (data : List FeatureVec) :
    ℚ × ℚ × ℕ :=
  (Evaluator.confusion pf data).foldl
    (fun acc kv =>
      (acc.1 + Evaluator.computePrecision (Evaluator.confusion pf data) kv.1,
       acc.2.1 + Evaluator.computeRecall (Evaluator.confusion pf data) kv.1,
       acc.2.2 + 1))
    (0, 0, 0)

/-- Macro-averaged precision of `Evaluator::evaluate` (evaluator.cpp line
    52): `labelCount > 0 ? precisionSum / labelCount : 0`. -/
def Evaluator.macroPrec (pf : List ℚ → SentimentLabel) (data : List FeatureVec) : ℚ :=
  if 0 < (Evaluator.sumsOf pf data).2.2 then
    (Evaluator.sumsOf pf data).1 / ((Evaluator.sumsOf pf data).2.2 : ℚ)
  else 0

/-- Macro-averaged recall of `Evaluator::evaluate` (evaluator.cpp line
    53). -/
def Evaluator.macroRec (pf : List ℚ → SentimentLabel) (data : List FeatureVec) : ℚ :=
  if 0 < (Evaluator.sumsOf pf data).2.2 then
    (Evaluator.sumsOf pf data).2.1 / ((Evaluator.sumsOf pf data).2.2 : ℚ)
  else 0

/-- `Evaluator::evaluate` (evaluator.cpp lines 11-67): all-zero metrics on
    an empty validation set, otherwise accuracy, the two macro averages,
    and the F1 computed once from those two macro averages. -/
def Evaluator.evaluate (pf : List ℚ → SentimentLabel)
    (validationData : List FeatureVec) : EvaluationMetrics :=
  if validationData.isEmpty then ⟨0, 0, 0, 0⟩
  else
    ⟨Evaluator.computeAccuracy (Evaluator.confusion pf validationData),
     Evaluator.macroPrec pf validationData,
     Evaluator.macroRec pf validationData,
     Evaluator.computeF1 (Evaluator.macroPrec pf validationData)
       (Evaluator.macroRec pf validationData)⟩

theorem foldl_sum3 {A : Type} (f g : A → ℚ) :
    ∀ (l : List A) (a b : ℚ) (n : ℕ),
      l.foldl (fun acc kv => (acc.1 + f kv, acc.2.1 + g kv, acc.2.2 + 1)) (a, b, n)
        = (a + (l.map f).sum, b + (l.map g).sum, n + l.length) := by
  intro l
  induction l with
  | nil => intro a b n; simp
  | cons x t ih =>
    intro a b n
    simp only [List.foldl_cons, List.map_cons, List.sum_cons, List.length_cons, ih,
      Prod.mk.injEq]
    refine ⟨by ring, by ring, by omega⟩

theorem confusion_ne_nil (pf : List ℚ → SentimentLabel) (data : List FeatureVec)
    (h : data ≠ []) : Evaluator.confusion pf data ≠ [] := by
  have hkeys : Evaluator.buildKeys data ≠ [] := by
    unfold Evaluator.buildKeys
    cases data with
    | nil => exact absurd rfl h
    | cons d t =>
      rw [List.foldl_cons]
      refine foldl_ne_nil _ (fun m ex hm => ?_) t _ ?_
      · split
        · exact hm
        · exact aupsert_ne_nil _ _ _
      · simp only [alookup, Option.isSome_none, Bool.false_eq_true, if_false]
        exact aupsert_ne_nil _ _ _
  unfold Evaluator.confusion Evaluator.fillCM
  exact foldl_ne_nil _ (fun m ex hm => aupsert_ne_nil _ _ _) data _ hkeys

/-- C9: the reported F1 score equals `2·P·R/(P+R)` computed once from the
    already macro-averaged precision P and recall R of the same metrics
    record (not an average of per-label F1 values), and equals 0 when
    `P + R = 0` (in particular on an empty validation set). -/
theorem evaluator_f1_from_macro_averages (pf : List ℚ → SentimentLabel)
    (data : List FeatureVec) :
    ((Evaluator.evaluate pf data).f1Score =
      (if 0 < (Evaluator.evaluate pf data).precision +
              (Evaluator.evaluate pf data).recallM
       then 2 * ((Evaluator.evaluate pf data).precision *
                 (Evaluator.evaluate pf data).recallM) /
            ((Evaluator.evaluate pf data).precision +
             (Evaluator.evaluate pf data).recallM)
       else 0)) ∧
    ((Evaluator.evaluate pf data).precision + (Evaluator.evaluate pf data).recallM = 0 →
      (Evaluator.evaluate pf data).f1Score = 0) := by
  have hmain : (Evaluator.evaluate pf data).f1Score =
      (if 0 < (Evaluator.evaluate pf data).precision +
              (Evaluator.evaluate pf data).recallM
       then 2 * ((Evaluator.evaluate pf data).precision *
                 (Evaluator.evaluate pf data).recallM) /
            ((Evaluator.evaluate pf data).precision +
             (Evaluator.evaluate pf data).recallM)
       else 0) := by
    unfold Evaluator.evaluate
    split
    · norm_num
    · simp [Evaluator.computeF1]
  refine ⟨hmain, fun h0 => ?_⟩
  rw [hmain, h0]
  norm_num

/-- Precision denominator of a label as the claim counts it: the number
    of validation examples predicted as `label` (`TP + FP`). -/
def precisionDenom (cm : List (SentimentLabel × List (SentimentLabel × ℕ)))
    (label : SentimentLabel) : ℕ :=
  cm.foldl
    (fun acc tl =>
      tl.2.foldl (fun a2 pl => if pl.1 = label then a2 + pl.2 else a2) acc)
    0

/-- Modelled from the claim text of C4 (spec 4.4), not from the source:
    the macro precision obtained by averaging only over the labels whose
    precision denominator is non-degenerate. -/
def claimMacroPrecision (pf : List ℚ → SentimentLabel) (data : List FeatureVec) : ℚ :=
  ((((Evaluator.confusion pf data).filter
      (fun kv => 0 < precisionDenom (Evaluator.confusion pf data) kv.1)).map
      (fun kv => Evaluator.computePrecision (Evaluator.confusion pf data) kv.1)).sum) /
    (((Evaluator.confusion pf data).filter
      (fun kv => 0 < precisionDenom (Evaluator.confusion pf data) kv.1)).length : ℚ)

/-- C4 counterexample: validation set `[(POSITIVE, []), (NEGATIVE, [])]`
    with a model that always predicts POSITIVE.  NEGATIVE is never
    predicted, so its precision denominator is 0; the claim requires it to
    be excluded from the macro precision (giving `1/2`), but
    `Evaluator::evaluate` counts it as a 0 term (giving `1/4`): the
    `isnan` guard never fires because `computePrecision` returns `0.0`,
    not NaN, on a zero denominator. -/
theorem evaluator_macro_includes_degenerate_label :
    (Evaluator.evaluate (fun _ => SentimentLabel.POSITIVE)
        [⟨[], SentimentLabel.POSITIVE⟩, ⟨[], SentimentLabel.NEGATIVE⟩]).precision
      = 1 / 4 ∧
    claimMacroPrecision (fun _ => SentimentLabel.POSITIVE)
        [⟨[], SentimentLabel.POSITIVE⟩, ⟨[], SentimentLabel.NEGATIVE⟩] = 1 / 2 ∧
    ((1 : ℚ) / 4 ≠ 1 / 2) := by
  have hpn : SentimentLabel.POSITIVE ≠ SentimentLabel.NEGATIVE := by decide
  have hnp : SentimentLabel.NEGATIVE ≠ SentimentLabel.POSITIVE := by decide
  refine ⟨?_, ?_, by norm_num⟩
  · norm_num [Evaluator.evaluate, Evaluator.macroPrec, Evaluator.sumsOf,
      Evaluator.confusion, Evaluator.fillCM, Evaluator.buildKeys,
      Evaluator.computePrecision, Evaluator.computeRecall, alookup, aupsert,
      hpn, hnp]
  · norm_num [claimMacroPrecision, precisionDenom, Evaluator.confusion,
      Evaluator.fillCM, Evaluator.buildKeys, Evaluator.computePrecision,
      alookup, aupsert, hpn, hnp, List.filter]

/-- C4 amended: for every non-empty validation set, the macro-averaged
    precision (and recall) reported by `Evaluator::evaluate` is the sum of
    the per-label values over ALL labels of the confusion matrix divided
    by the total number of labels: a label with a zero denominator
    contributes a `0` term to the mean and is counted in the divisor, not
    excluded.  (The NaN-exclusion guard in the source is unreachable
    because `computePrecision`/`computeRecall` return `0.0`, never NaN, on
    a zero denominator.) -/
theorem evaluator_macro_counts_all_labels (pf : List ℚ → SentimentLabel)
    (data : List FeatureVec) (h : data ≠ []) :
    (Evaluator.evaluate pf data).precision =
      ((Evaluator.confusion pf data).map
        (fun kv => Evaluator.computePrecision (Evaluator.confusion pf data) kv.1)).sum /
        ((Evaluator.confusion pf data).length : ℚ) ∧
    (Evaluator.evaluate pf data).recallM =
      ((Evaluator.confusion pf data).map
        (fun kv => Evaluator.computeRecall (Evaluator.confusion pf data) kv.1)).sum /
        ((Evaluator.confusion pf data).length : ℚ) := by
  have hcm : Evaluator.confusion pf data ≠ [] := confusion_ne_nil pf data h
  have hlen : 0 < (Evaluator.confusion pf data).length := List.length_pos.mpr hcm
  have hsums : Evaluator.sumsOf pf data =
      (((Evaluator.confusion pf data).map
          (fun kv => Evaluator.computePrecision (Evaluator.confusion pf data) kv.1)).sum,
       ((Evaluator.confusion pf data).map
          (fun kv => Evaluator.computeRecall (Evaluator.confusion pf data) kv.1)).sum,
       (Evaluator.confusion pf data).length) := by
    unfold Evaluator.sumsOf
    rw [foldl_sum3]
    norm_num
  unfold Evaluator.evaluate
  rw [if_neg (by simpa [List.isEmpty_iff] using h)]
  constructor
  · show Evaluator.macroPrec pf data = _
    unfold Evaluator.macroPrec
    rw [hsums, if_pos hlen]
  · show Evaluator.macroRec pf data = _
    unfold Evaluator.macroRec
    rw [hsums, if_pos hlen]

theorem evaluator_macro_counts_all_labels_witness :
    (([⟨[], SentimentLabel.POSITIVE⟩, ⟨[], SentimentLabel.NEGATIVE⟩] :
        List FeatureVec) ≠ []) ∧
    ((Evaluator.evaluate (fun _ => SentimentLabel.POSITIVE)
        [⟨[], SentimentLabel.POSITIVE⟩, ⟨[], SentimentLabel.NEGATIVE⟩]).precision =
      ((Evaluator.confusion (fun _ => SentimentLabel.POSITIVE)
          [⟨[], SentimentLabel.POSITIVE⟩, ⟨[], SentimentLabel.NEGATIVE⟩]).map
        (fun kv => Evaluator.computePrecision
          (Evaluator.confusion (fun _ => SentimentLabel.POSITIVE)
            [⟨[], SentimentLabel.POSITIVE⟩, ⟨[], SentimentLabel.NEGATIVE⟩]) kv.1)).sum /
        ((Evaluator.confusion (fun _ => SentimentLabel.POSITIVE)
          [⟨[], SentimentLabel.POSITIVE⟩, ⟨[], SentimentLabel.NEGATIVE⟩]).length : ℚ)) := by
  refine ⟨by simp, ?_⟩
  exact (evaluator_macro_counts_all_labels (fun _ => SentimentLabel.POSITIVE)
    [⟨[], SentimentLabel.POSITIVE⟩, ⟨[], SentimentLabel.NEGATIVE⟩] (by simp)).1

/-- The weighting `Method` of `FeatureExtractor` (feature_extractor.h). -/
inductive FEMethod
  | COUNT
  | TF_IDF
deriving DecidableEq

/-- The parts of the `FeatureExtractor` state (feature_extractor.h) that
    `extractFeatures` reads: the vocabulary map, the document frequencies
    and the document count produced by `buildVocabulary`, and the
    weighting method chosen at construction. -/
structure FEState where
  method : FEMethod
  vocabulary : List (String × ℕ)
  documentFrequencies : List ℚ
  documentCount : ℕ
deriving DecidableEq

/-- The counting phase of `FeatureExtractor::extractFeatures`
    (feature_extractor.cpp lines 89-98): a zero vector of the vocabulary
    size, then `features[vocabulary[token]] += 1.0` for every known token
    (unknown tokens are ignored).  The write is bounds-checked: `none`
    models the undefined behaviour of an index outside the vector, which
    `buildVocabulary` never produces. -/
def FeatureExtractor.countTokens (s : FEState) (tokens : List String) :
    Option (List ℚ) :=
  tokens.foldl
    (fun acc tok =>
      acc.bind (fun feats =>
        match alookup tok s.vocabulary with
        | some idx => incrAt feats idx 1
        | none => some feats))
    (some (List.replicate s.vocabulary.length (0 : ℚ)))

/-- `FeatureExtractor::calculateTfIdf` (feature_extractor.cpp lines
    141-156): 0 when the document count is 0, when the index is outside
    the document-frequency vector, or when the frequency is 0; otherwise
    `tf * log(N / docFreq)`. -/
def FeatureExtractor.calculateTfIdf (log : ℚ → ℚ) (s : FEState) (tf : ℚ)
    (wordIndex : ℕ) : ℚ :=
  if s.documentCount = 0 ∨ s.documentFrequencies.length ≤ wordIndex then 0
  else if s.documentFrequencies.getD wordIndex 0 = 0 then 0
  else tf * log ((s.documentCount : ℚ) / s.documentFrequencies.getD wordIndex 0)

/-- The TF-IDF rewrite loop of `FeatureExtractor::extractFeatures`
    (feature_extractor.cpp lines 101-107): every strictly positive entry
    is replaced in place by its TF-IDF weight. -/
def FeatureExtractor.tfIdfPass (log : ℚ → ℚ) (s : FEState) (feats : List ℚ) :
    List ℚ :=
  (List.range feats.length).foldl
    (fun fs i =>
      if 0 < fs.getD i 0 then
        fs.set i (FeatureExtractor.calculateTfIdf log s (fs.getD i 0) i)
      else fs)
    feats

/-- `FeatureExtractor::extractFeatures` (feature_extractor.cpp lines
    85-110). -/
def FeatureExtractor.extractFeatures (log : ℚ → ℚ) (s : FEState)
    (tokens : List String) : Option (List ℚ) :=
  (FeatureExtractor.countTokens s tokens).map (fun feats =>
    if s.method = FEMethod.TF_IDF then FeatureExtractor.tfIdfPass log s feats
    else feats)

theorem alookup_mem {α β : Type} [DecidableEq α] {k : α} {b : β}
    {l : List (α × β)} (h : alookup k l = some b) : (k, b) ∈ l := by
  induction l with
  | nil => cases h
  | cons p t ih =>
    obtain ⟨a, c⟩ := p
    by_cases hak : a = k
    · subst hak
      rw [alookup, if_pos rfl] at h
      cases h
      exact List.mem_cons_self _ _
    · rw [alookup, if_neg hak] at h
      exact List.mem_cons_of_mem _ (ih h)

theorem incrAt_getD (xs ys : List ℚ) (i : ℕ) (v : ℚ)
    (h : incrAt xs i v = some ys) :
    ∀ j, ys.getD j 0 = if j = i then xs.getD j 0 + v else xs.getD j 0 := by
  induction xs generalizing i ys with
  | nil => cases h
  | cons x t ih =>
    cases i with
    | zero =>
      cases h
      intro j
      cases j with
      | zero => simp [List.getD]
      | succ m => simp [List.getD]
    | succ n =>
      rw [incrAt] at h
      cases hrec : incrAt t n v with
      | none => rw [hrec] at h; cases h
      | some r =>
        rw [hrec] at h
        cases h
        intro j
        cases j with
        | zero => simp [List.getD]
        | succ m =>
          have := ih r n hrec m
          simp only [List.getD_cons_succ]
          rw [this]
          by_cases hmn : m = n
          · subst hmn; simp
          · simp [hmn, fun hh => hmn (Nat.succ_injective hh)]

theorem incrAt_nonneg (xs ys : List ℚ) (i : ℕ) (v : ℚ) (hv : 0 ≤ v)
    (h : incrAt xs i v = some ys) (hxs : ∀ x ∈ xs, 0 ≤ x) : ∀ y ∈ ys, 0 ≤ y := by
  induction xs generalizing i ys with
  | nil => cases h
  | cons x t ih =>
    cases i with
    | zero =>
      cases h
      intro y hy
      rcases List.mem_cons.mp hy with rfl | hy
      · have := hxs x (List.mem_cons_self _ _)
        linarith
      · exact hxs y (List.mem_cons_of_mem _ hy)
    | succ n =>
      rw [incrAt] at h
      cases hrec : incrAt t n v with
      | none => rw [hrec] at h; cases h
      | some r =>
        rw [hrec] at h
        cases h
        intro y hy
        rcases List.mem_cons.mp hy with rfl | hy
        · exact hxs y (List.mem_cons_self _ _)
        · exact ih r n hrec (fun z hz => hxs z (List.mem_cons_of_mem _ hz)) y hy

theorem countTokens_spec (s : FEState) (tokens : List String)
    (hwf : ∀ p ∈ s.vocabulary, p.2 < s.vocabulary.length) :
    ∃ c, FeatureExtractor.countTokens s tokens = some c ∧
      c.length = s.vocabulary.length ∧ ∀ x ∈ c, 0 ≤ x := by
  suffices h : ∀ feats : List ℚ, feats.length = s.vocabulary.length →
      (∀ x ∈ feats, 0 ≤ x) →
      ∃ c, tokens.foldl
          (fun acc tok =>
            acc.bind (fun feats =>
              match alookup tok s.vocabulary with
              | some idx => incrAt feats idx 1
              | none => some feats))
          (some feats) = some c ∧
        c.length = s.vocabulary.length ∧ ∀ x ∈ c, 0 ≤ x by
    refine h _ (List.length_replicate _ _) ?_
    intro x hx
    rw [List.eq_of_mem_replicate hx]
  induction tokens with
  | nil =>
    intro feats h1 h2
    exact ⟨feats, rfl, h1, h2⟩
  | cons tok t ih =>
    intro feats h1 h2
    rw [List.foldl_cons]
    cases hlk : alookup tok s.vocabulary with
    | none =>
      simpa [hlk] using ih feats h1 h2
    | some idx =>
      have hidx : idx < feats.length := by
        rw [h1]; exact hwf _ (alookup_mem hlk)
      obtain ⟨ys, hys, hyslen⟩ := incrAt_isSome_of_lt feats idx 1 hidx
      have hnn : ∀ x ∈ ys, 0 ≤ x :=
        incrAt_nonneg feats ys idx 1 (by norm_num) hys h2
      have := ih ys (by rw [hyslen, h1]) hnn
      simpa [hlk, hys] using this

theorem getD_set_self (xs : List ℚ) (i : ℕ) (v : ℚ) (h : i < xs.length) :
    (xs.set i v).getD i 0 = v := by
  induction xs generalizing i with
  | nil => simp at h
  | cons x t ih =>
    cases i with
    | zero => rfl
    | succ n => exact ih n (Nat.lt_of_succ_lt_succ h)

theorem getD_set_ne (xs : List ℚ) (i j : ℕ) (v : ℚ) (h : i ≠ j) :
    (xs.set j v).getD i 0 = xs.getD i 0 := by
  induction xs generalizing i j with
  | nil => rfl
  | cons x t ih =>
    cases j with
    | zero =>
      cases i with
      | zero => exact absurd rfl h
      | succ m => rfl
    | succ n =>
      cases i with
      | zero => rfl
      | succ m => exact ih m n (fun hh => h (by rw [hh]))

theorem getD_nonneg_of_forall (xs : List ℚ) (h : ∀ x ∈ xs, 0 ≤ x) (j : ℕ) :
    0 ≤ xs.getD j 0 := by
  induction xs generalizing j with
  | nil => simp [List.getD]
  | cons x t ih =>
    cases j with
    | zero => exact h x (List.mem_cons_self _ _)
    | succ n => exact ih (fun z hz => h z (List.mem_cons_of_mem _ hz)) n

theorem tfIdfPass_fold_getD (log : ℚ → ℚ) (s : FEState) :
    ∀ (idxs : List ℕ), idxs.Nodup → ∀ (feats : List ℚ),
      (∀ j ∈ idxs, j < feats.length) →
      ((idxs.foldl
          (fun fs i =>
            if 0 < fs.getD i 0 then
              fs.set i (FeatureExtractor.calculateTfIdf log s (fs.getD i 0) i)
            else fs) feats).length = feats.length) ∧
      (∀ i, i ∉ idxs →
        (idxs.foldl
          (fun fs i =>
            if 0 < fs.getD i 0 then
              fs.set i (FeatureExtractor.calculateTfIdf log s (fs.getD i 0) i)
            else fs) feats).getD i 0 = feats.getD i 0) ∧
      (∀ i ∈ idxs,
        (idxs.foldl
          (fun fs i =>
            if 0 < fs.getD i 0 then
              fs.set i (FeatureExtractor.calculateTfIdf log s (fs.getD i 0) i)
            else fs) feats).getD i 0 =
          if 0 < feats.getD i 0 then
            FeatureExtractor.calculateTfIdf log s (feats.getD i 0) i
          else feats.getD i 0) := by
  intro idxs
  induction idxs with
  | nil =>
    intro _ feats _
    exact ⟨rfl, fun i _ => rfl, fun i hi => absurd hi (List.not_mem_nil i)⟩
  | cons j t ih =>
    intro hnd feats hbound
    have hjt : j ∉ t := (List.nodup_cons.mp hnd).1
    have hndt : t.Nodup := (List.nodup_cons.mp hnd).2
    have hj : j < feats.length := hbound j (List.mem_cons_self _ _)
    set fs1 := if 0 < feats.getD j 0 then
      feats.set j (FeatureExtractor.calculateTfIdf log s (feats.getD j 0) j)
    else feats with hfs1
    have hfs1len : fs1.length = feats.length := by
      rw [hfs1]; split <;> simp
    have hfs1same : ∀ i, i ≠ j → fs1.getD i 0 = feats.getD i 0 := by
      intro i hij
      rw [hfs1]
      split
      · exact getD_set_ne feats i j _ hij
      · rfl
    have hfs1j : fs1.getD j 0 =
        if 0 < feats.getD j 0 then
          FeatureExtractor.calculateTfIdf log s (feats.getD j 0) j
        else feats.getD j 0 := by
      rw [hfs1]
      split
      · exact getD_set_self feats j _ hj
      · rfl
    have hboundt : ∀ k ∈ t, k < fs1.length := by
      intro k hk
      rw [hfs1len]
      exact hbound k (List.mem_cons_of_mem _ hk)
    obtain ⟨ihlen, ihnot, ihmem⟩ := ih hndt fs1 hboundt
    rw [List.foldl_cons]
    refine ⟨by rw [ihlen, hfs1len], ?_, ?_⟩
    · intro i hi
      have hit : i ∉ t := fun hh => hi (List.mem_cons_of_mem _ hh)
      have hij : i ≠ j := fun hh => hi (hh ▸ List.mem_cons_self _ _)
      rw [ihnot i hit, hfs1same i hij]
    · intro i hi
      rcases List.mem_cons.mp hi with rfl | hit
      · rw [ihnot i hjt, hfs1j]
      · have hij : i ≠ j := fun hh => hjt (hh ▸ hit)
        rw [ihmem i hit, hfs1same i hij]

/-- C8: in TF-IDF mode, an extracted entry with a strictly positive raw
    count, a positive document count N and a positive document frequency
    equals `count * log(N / docFreq)`; it is 0 whenever the raw count is
    0, the document frequency is 0, or N is 0; and whenever `log 1 = 0`
    (true of the real logarithm), a token occurring in every one of the N
    training documents (`docFreq = N`) gets weight 0 regardless of its
    term frequency.  `c` is the raw count vector that count mode would
    produce (the counting phase of the same function). -/
theorem tfidf_extract_entries (log : ℚ → ℚ) (s : FEState) (tokens : List String)
    (hmode : s.method = FEMethod.TF_IDF)
    (hwf : ∀ p ∈ s.vocabulary, p.2 < s.vocabulary.length)
    (hdflen : s.documentFrequencies.length = s.vocabulary.length) :
    ∃ c feats,
      FeatureExtractor.countTokens s tokens = some c ∧
      FeatureExtractor.extractFeatures log s tokens = some feats ∧
      feats.length = s.vocabulary.length ∧
      ∀ i, i < s.vocabulary.length →
        ((0 < c.getD i 0 → 0 < s.documentCount →
            0 < s.documentFrequencies.getD i 0 →
          feats.getD i 0 =
            c.getD i 0 *
              log ((s.documentCount : ℚ) / s.documentFrequencies.getD i 0)) ∧
         (c.getD i 0 = 0 ∨ s.documentFrequencies.getD i 0 = 0 ∨
            s.documentCount = 0 →
          feats.getD i 0 = 0) ∧
         (log 1 = 0 → s.documentFrequencies.getD i 0 = (s.documentCount : ℚ) →
          feats.getD i 0 = 0)) := by
  obtain ⟨c, hc, hclen, hcnn⟩ := countTokens_spec s tokens hwf
  obtain ⟨plen, pother, pmem⟩ := tfIdfPass_fold_getD log s (List.range c.length)
    (List.nodup_range _) c (fun j hj => List.mem_range.mp hj)
  have hfeats : FeatureExtractor.extractFeatures log s tokens =
      some (FeatureExtractor.tfIdfPass log s c) := by
    rw [FeatureExtractor.extractFeatures, hc]
    simp [hmode]
  refine ⟨c, FeatureExtractor.tfIdfPass log s c, hc, hfeats, ?_, ?_⟩
  · rw [FeatureExtractor.tfIdfPass, plen, hclen]
  · intro i hi
    have hic : i < c.length := by rw [hclen]; exact hi
    have hidf : ¬ (s.documentFrequencies.length ≤ i) := by
      rw [hdflen]; exact Nat.not_le_of_lt hi
    have hival : (FeatureExtractor.tfIdfPass log s c).getD i 0 =
        if 0 < c.getD i 0 then
          FeatureExtractor.calculateTfIdf log s (c.getD i 0) i
        else c.getD i 0 :=
      pmem i (List.mem_range.mpr hic)
    have hczero : ¬ (0 < c.getD i 0) → c.getD i 0 = 0 := by
      intro hnp
      exact le_antisymm (le_of_not_lt hnp) (getD_nonneg_of_forall c hcnn i)
    refine ⟨?_, ?_, ?_⟩
    · intro hcpos hN hdf
      rw [hival, if_pos hcpos, FeatureExtractor.calculateTfIdf,
        if_neg (by push_neg; exact ⟨Nat.pos_iff_ne_zero.mp hN, Nat.lt_of_not_le hidf⟩),
        if_neg (ne_of_gt hdf)]
    · rintro (h0 | h0 | h0)
      · rw [hival, h0, if_neg (lt_irrefl 0)]
      · by_cases hcp : 0 < c.getD i 0
        · rw [hival, if_pos hcp, FeatureExtractor.calculateTfIdf]
          by_cases hg : s.documentCount = 0 ∨ s.documentFrequencies.length ≤ i
          · rw [if_pos hg]
          · rw [if_neg hg, if_pos h0]
        · rw [hival, if_neg hcp]
          exact hczero hcp
      · by_cases hcp : 0 < c.getD i 0
        · rw [hival, if_pos hcp, FeatureExtractor.calculateTfIdf,
            if_pos (Or.inl h0)]
        · rw [hival, if_neg hcp]
          exact hczero hcp
    · intro hlog hdfN
      by_cases hcp : 0 < c.getD i 0
      · by_cases hN : s.documentCount = 0
        · rw [hival, if_pos hcp, FeatureExtractor.calculateTfIdf, if_pos (Or.inl hN)]
        · have hNq : ((s.documentCount : ℚ)) ≠ 0 := Nat.cast_ne_zero.mpr hN
          rw [hival, if_pos hcp, FeatureExtractor.calculateTfIdf,
            if_neg (by push_neg; exact ⟨hN, Nat.lt_of_not_le hidf⟩),
            if_neg (by rw [hdfN]; exact hNq), hdfN, div_self hNq, hlog, mul_zero]
      · rw [hival, if_neg hcp]
        exact hczero hcp

/-- A concrete TF-IDF extractor state: vocabulary `{a ↦ 0, b ↦ 1}`,
    document frequencies `[2, 1]`, two training documents. -/
def FESexample : FEState :=
  ⟨FEMethod.TF_IDF, [("a", 0), ("b", 1)], [2, 1], 2⟩

theorem tfidf_extract_entries_witness :
    (FESexample.method = FEMethod.TF_IDF ∧
     (∀ p ∈ FESexample.vocabulary, p.2 < FESexample.vocabulary.length) ∧
     FESexample.documentFrequencies.length = FESexample.vocabulary.length) ∧
    (∃ c feats,
      FeatureExtractor.countTokens FESexample ["a", "a", "b"] = some c ∧
      FeatureExtractor.extractFeatures id FESexample ["a", "a", "b"] = some feats ∧
      feats.length = FESexample.vocabulary.length ∧
      ∀ i, i < FESexample.vocabulary.length →
        ((0 < c.getD i 0 → 0 < FESexample.documentCount →
            0 < FESexample.documentFrequencies.getD i 0 →
          feats.getD i 0 =
            c.getD i 0 * ((FESexample.documentCount : ℚ) /
              FESexample.documentFrequencies.getD i 0)) ∧
         (c.getD i 0 = 0 ∨ FESexample.documentFrequencies.getD i 0 = 0 ∨
            FESexample.documentCount = 0 →
          feats.getD i 0 = 0) ∧
         ((1 : ℚ) = 0 →
          FESexample.documentFrequencies.getD i 0 = (FESexample.documentCount : ℚ) →
          feats.getD i 0 = 0))) := by
  refine ⟨⟨rfl, by decide, rfl⟩, ?_⟩
  exact tfidf_extract_entries id FESexample ["a", "a", "b"] rfl (by decide) rfl

theorem insertSorted_ne_nil (x : String) (l : List String) :
    insertSorted x l ≠ [] := by
  cases l with
  | nil => simp [insertSorted]
  | cons y t =>
    rw [insertSorted]
    split
    · simp
    · split <;> simp

theorem mem_insertSorted (y x : String) (l : List String) :
    y ∈ insertSorted x l ↔ y = x ∨ y ∈ l := by
  induction l with
  | nil => simp [insertSorted]
  | cons z t ih =>
    rw [insertSorted]
    split
    · rename_i hxz
      subst hxz
      constructor
      · intro h; exact Or.inr h
      · rintro (rfl | h)
        · exact List.mem_cons_self _ _
        · exact h
    · split
      · simp [or_comm, or_assoc, or_left_comm]
      · simp only [List.mem_cons, ih]
        tauto

theorem foldl_insertSorted_ne_nil :
    ∀ (ls : List String) (acc : List String), acc ≠ [] →
      ls.foldl (fun cs l => insertSorted l cs) acc ≠ [] := by
  intro ls
  induction ls with
  | nil => intro acc h; exact h
  | cons x t ih =>
    intro acc _
    rw [List.foldl_cons]
    exact ih _ (insertSorted_ne_nil x acc)

theorem classes_ne_nil (labels : List String) (h : labels ≠ []) :
    labels.foldl (fun cs l => insertSorted l cs) [] ≠ [] := by
  cases labels with
  | nil => exact absurd rfl h
  | cons x t =>
    rw [List.foldl_cons]
    exact foldl_insertSorted_ne_nil t _ (insertSorted_ne_nil x [])

theorem mem_classes_foldl (c : String) :
    ∀ (labels : List String) (acc : List String),
      c ∈ labels.foldl (fun cs l => insertSorted l cs) acc ↔
        c ∈ labels ∨ c ∈ acc := by
  intro labels
  induction labels with
  | nil => intro acc; simp
  | cons x t ih =>
    intro acc
    rw [List.foldl_cons, ih, mem_insertSorted]
    simp only [List.mem_cons]
    tauto

/-- Keys of an association list are pairwise distinct. -/
def KeysNodup {α β : Type} (l : List (α × β)) : Prop := (l.map Prod.fst).Nodup

theorem mem_keys_aupsert {α β : Type} [DecidableEq α] (x k : α) (f : Option β → β)
    (l : List (α × β)) :
    x ∈ (aupsert k f l).map Prod.fst ↔ x = k ∨ x ∈ l.map Prod.fst := by
  induction l with
  | nil => simp [aupsert]
  | cons p t ih =>
    obtain ⟨a, b⟩ := p
    by_cases hak : a = k
    · subst hak
      simp [aupsert]
    · simp only [aupsert, if_neg hak, List.map_cons, List.mem_cons, ih]
      tauto

theorem keysNodup_aupsert {α β : Type} [DecidableEq α] (k : α) (f : Option β → β)
    (l : List (α × β)) (h : KeysNodup l) : KeysNodup (aupsert k f l) := by
  induction l with
  | nil => simp [KeysNodup, aupsert]
  | cons p t ih =>
    obtain ⟨a, b⟩ := p
    rw [KeysNodup, List.map_cons, List.nodup_cons] at h
    by_cases hak : a = k
    · subst hak
      rw [KeysNodup, aupsert, if_pos rfl, List.map_cons, List.nodup_cons]
      exact h
    · rw [KeysNodup, aupsert, if_neg hak, List.map_cons, List.nodup_cons]
      refine ⟨?_, ih h.2⟩
      rw [mem_keys_aupsert]
      rintro (rfl | hmem)
      · exact hak rfl
      · exact h.1 hmem

theorem aupsert_values {α β : Type} [DecidableEq α] {P : β → Prop} (k : α)
    (f : Option β → β) (l : List (α × β)) (hl : ∀ p ∈ l, P p.2)
    (hf : ∀ o : Option β, (∀ v, o = some v → P v) → P (f o)) :
    ∀ p ∈ aupsert k f l, P p.2 := by
  induction l with
  | nil =>
    intro p hp
    rw [aupsert] at hp
    rcases List.mem_singleton.mp hp with rfl
    exact hf none (fun v hv => by cases hv)
  | cons q t ih =>
    obtain ⟨a, b⟩ := q
    intro p hp
    by_cases hak : a = k
    · subst hak
      rw [aupsert, if_pos rfl] at hp
      rcases List.mem_cons.mp hp with rfl | hmem
      · exact hf (some b) (fun v hv => by
          cases hv; exact hl (a, b) (List.mem_cons_self _ _))
      · exact hl p (List.mem_cons_of_mem _ hmem)
    · rw [aupsert, if_neg hak] at hp
      rcases List.mem_cons.mp hp with rfl | hmem
      · exact hl (a, b) (List.mem_cons_self _ _)
      · exact ih (fun q hq => hl q (List.mem_cons_of_mem _ hq)) p hmem

theorem alookup_eq_none_iff {α β : Type} [DecidableEq α] (k : α) (l : List (α × β)) :
    alookup k l = none ↔ k ∉ l.map Prod.fst := by
  induction l with
  | nil => simp [alookup]
  | cons p t ih =>
    obtain ⟨a, b⟩ := p
    by_cases hak : a = k
    · subst hak
      simp [alookup]
    · simp only [alookup, if_neg hak, List.map_cons, List.mem_cons, ih]
      constructor
      · rintro h (rfl | hm)
        · exact hak rfl
        · exact h hm
      · intro h hm
        exact h (Or.inr hm)

theorem alookup_isSome_preserved {α β : Type} [DecidableEq α] (k k2 : α)
    (f : Option β → β) (l : List (α × β)) (h : (alookup k l).isSome) :
    (alookup k (aupsert k2 f l)).isSome := by
  by_cases hk : k = k2
  · subst hk
    rw [alookup_aupsert_self]
    rfl
  · rw [alookup_aupsert_ne _ _ hk]
    exact h

/-- Lookup of the accumulated word count of class `c` at word index `i`. -/
def wlookup (wc : List (String × List (ℕ × ℚ))) (c : String) (i : ℕ) : Option ℚ :=
  (alookup c wc).bind (alookup i)

/-- The contribution of one document to `word_counts_per_class` at index
    `i`: its count there when strictly positive, else nothing. -/
def wpos (f : List ℚ) (i : ℕ) : ℚ := if 0 < f.getD i 0 then f.getD i 0 else 0

/-- The contribution of one document to `total_words_in_class_`: the sum
    of its strictly positive entries. -/
def tpos (f : List ℚ) : ℚ := ((List.range f.length).map (wpos f)).sum

/-- The word mass `W(c, i)` accumulated by step 2 of
    `NaiveBayesClassifier::train` over a document list: only strictly
    positive counts contribute. -/
def WmassPos (docs : List (List ℚ × String)) (c : String) (i : ℕ) : ℚ :=
  (docs.map (fun fl => if fl.2 = c then wpos fl.1 i else 0)).sum

/-- The class mass `T(c)` accumulated by step 2 of
    `NaiveBayesClassifier::train` over a document list. -/
def TmassPos (docs : List (List ℚ × String)) (c : String) : ℚ :=
  (docs.map (fun fl => if fl.2 = c then tpos fl.1 else 0)).sum

theorem wpos_nonneg (f : List ℚ) (i : ℕ) : 0 ≤ wpos f i := by
  rw [wpos]
  split
  · linarith
  · exact le_refl 0

theorem WmassPos_nonneg (docs : List (List ℚ × String)) (c : String) (i : ℕ) :
    0 ≤ WmassPos docs c i := by
  refine List.sum_nonneg ?_
  intro x hx
  obtain ⟨fl, _, rfl⟩ := List.mem_map.mp hx
  split
  · exact wpos_nonneg _ _
  · exact le_refl 0

theorem alookup_getD_bind {α β : Type} [DecidableEq α]
    (o : Option (List (α × β))) (i : α) :
    alookup i (o.getD []) = o.bind (alookup i) := by
  cases o <;> rfl

theorem docStep_fold (f : List ℚ) (lb : String) :
    ∀ (idxs : List ℕ), idxs.Nodup →
    ∀ (wc : List (String × List (ℕ × ℚ))) (tw : List (String × ℚ)),
      (∀ c, c ≠ lb →
        alookup c (idxs.foldl (NBCdocStep f lb) (wc, tw)).1 = alookup c wc) ∧
      (∀ c, c ≠ lb →
        alookup c (idxs.foldl (NBCdocStep f lb) (wc, tw)).2 = alookup c tw) ∧
      (∀ t0, alookup lb tw = some t0 →
        alookup lb (idxs.foldl (NBCdocStep f lb) (wc, tw)).2 =
          some (t0 + (idxs.map (wpos f)).sum)) ∧
      (∀ i, i ∉ idxs →
        wlookup (idxs.foldl (NBCdocStep f lb) (wc, tw)).1 lb i = wlookup wc lb i) ∧
      (∀ i ∈ idxs,
        wlookup (idxs.foldl (NBCdocStep f lb) (wc, tw)).1 lb i =
          if 0 < f.getD i 0 then some ((wlookup wc lb i).getD 0 + f.getD i 0)
          else wlookup wc lb i) := by
  intro idxs
  induction idxs with
  | nil =>
    intro _ wc tw
    refine ⟨fun c _ => rfl, fun c _ => rfl, fun t0 h => ?_,
      fun i _ => rfl, fun i hi => absurd hi (List.not_mem_nil i)⟩
    simpa using h
  | cons j t ih =>
    intro hnd wc tw
    have hjt : j ∉ t := (List.nodup_cons.mp hnd).1
    have hndt : t.Nodup := (List.nodup_cons.mp hnd).2
    by_cases hcj : 0 < f.getD j 0
    · have hcj2 : 0 < f[j]?.getD 0 := by
        rw [← List.getD_eq_getElem?_getD]
        exact hcj
      have hstep : NBCdocStep f lb (wc, tw) j =
          (aupsert lb
            (fun o => aupsert j (fun o2 => o2.getD 0 + f.getD j 0) (o.getD [])) wc,
           aupsert lb (fun o => o.getD 0 + f.getD j 0) tw) := by
        simp [NBCdocStep, hcj2]
      set wc1 := aupsert lb
        (fun o => aupsert j (fun o2 => o2.getD 0 + f.getD j 0) (o.getD [])) wc with hwc1
      set tw1 := aupsert lb (fun o => o.getD 0 + f.getD j 0) tw with htw1
      obtain ⟨iha, ihb, ihc, ihd, ihe⟩ := ih hndt wc1 tw1
      have hw1ne : ∀ c, c ≠ lb → alookup c wc1 = alookup c wc := by
        intro c hc
        rw [hwc1]
        exact alookup_aupsert_ne _ _ hc
      have ht1ne : ∀ c, c ≠ lb → alookup c tw1 = alookup c tw := by
        intro c hc
        rw [htw1]
        exact alookup_aupsert_ne _ _ hc
      have hw1j : wlookup wc1 lb j = some ((wlookup wc lb j).getD 0 + f.getD j 0) := by
        rw [wlookup, hwc1, alookup_aupsert_self, Option.some_bind,
          alookup_aupsert_self, alookup_getD_bind]
        rfl
      have hw1i : ∀ i, i ≠ j → wlookup wc1 lb i = wlookup wc lb i := by
        intro i hij
        rw [wlookup, hwc1, alookup_aupsert_self, Option.some_bind,
          alookup_aupsert_ne _ _ hij, alookup_getD_bind]
        rfl
      rw [List.foldl_cons, hstep]
      refine ⟨?_, ?_, ?_, ?_, ?_⟩
      · intro c hc
        rw [iha c hc, hw1ne c hc]
      · intro c hc
        rw [ihb c hc, ht1ne c hc]
      · intro t0 ht0
        have ht1 : alookup lb tw1 = some (t0 + f.getD j 0) := by
          rw [htw1, alookup_aupsert_self, ht0]
          rfl
        rw [ihc _ ht1, List.map_cons, List.sum_cons]
        congr 1
        rw [wpos, if_pos hcj]
        ring
      · intro i hi
        have hij : i ≠ j := fun hh => hi (hh ▸ List.mem_cons_self _ _)
        have hit : i ∉ t := fun hh => hi (List.mem_cons_of_mem _ hh)
        rw [ihd i hit, hw1i i hij]
      · intro i hi
        rcases List.mem_cons.mp hi with rfl | hit
        · rw [ihd i hjt, hw1j, if_pos hcj]
        · have hij : i ≠ j := fun hh => hjt (hh ▸ hit)
          rw [ihe i hit, hw1i i hij]
    · have hcj2 : ¬ 0 < f[j]?.getD 0 := by
        rw [← List.getD_eq_getElem?_getD]
        exact hcj
      have hstep : NBCdocStep f lb (wc, tw) j = (wc, tw) := by
        simp [NBCdocStep, hcj2]
      obtain ⟨iha, ihb, ihc, ihd, ihe⟩ := ih hndt wc tw
      rw [List.foldl_cons, hstep]
      refine ⟨iha, ihb, ?_, ?_, ?_⟩
      · intro t0 ht0
        rw [ihc _ ht0, List.map_cons, List.sum_cons]
        congr 2
        rw [wpos, if_neg hcj]
        ring
      · intro i hi
        exact ihd i (fun hh => hi (List.mem_cons_of_mem _ hh))
      · intro i hi
        rcases List.mem_cons.mp hi with rfl | hit
        · rw [ihd i hjt, if_neg hcj]
        · exact ihe i hit

theorem docStep_fold_tw_isSome (f : List ℚ) (lb : String) (idxs : List ℕ)
    (hnd : idxs.Nodup) (wc : List (String × List (ℕ × ℚ)))
    (tw : List (String × ℚ)) (k : String) (h : (alookup k tw).isSome) :
    (alookup k (idxs.foldl (NBCdocStep f lb) (wc, tw)).2).isSome := by
  by_cases hk : k = lb
  · subst hk
    obtain ⟨t0, ht0⟩ := Option.isSome_iff_exists.mp h
    rw [(docStep_fold f k idxs hnd wc tw).2.2.1 t0 ht0]
    rfl
  · rw [(docStep_fold f lb idxs hnd wc tw).2.1 k hk]
    exact h

theorem processDocs_spec :
    ∀ (docs : List (List ℚ × String))
      (acc : List (String × List (ℕ × ℚ)) × List (String × ℚ)),
      (∀ d ∈ docs, (alookup d.2 acc.2).isSome) →
      (∀ c i, wlookup (docs.foldl NBCprocessDoc acc).1 c i =
        (if 0 < WmassPos docs c i then
          some ((wlookup acc.1 c i).getD 0 + WmassPos docs c i)
        else wlookup acc.1 c i)) ∧
      (∀ c t0, alookup c acc.2 = some t0 →
        alookup c (docs.foldl NBCprocessDoc acc).2 = some (t0 + TmassPos docs c)) := by
  intro docs
  induction docs with
  | nil =>
    intro acc _
    refine ⟨fun c i => ?_, fun c t0 h => ?_⟩
    · rw [WmassPos]
      simp
    · rw [TmassPos]
      simpa using h
  | cons d rest ih =>
    intro acc hpres
    obtain ⟨wc, tw⟩ := acc
    obtain ⟨f, lb⟩ := d
    obtain ⟨ha, hb, hc, hd, he⟩ :=
      docStep_fold f lb (List.range f.length) (List.nodup_range _) wc tw
    set r1 := (List.range f.length).foldl (NBCdocStep f lb) (wc, tw) with hr1
    have hstep : NBCprocessDoc (wc, tw) (f, lb) = r1 := rfl
    have hpres1 : ∀ d2 ∈ rest, (alookup d2.2 r1.2).isSome := by
      intro d2 hd2
      rw [hr1]
      exact docStep_fold_tw_isSome f lb _ (List.nodup_range _) wc tw _
        (hpres d2 (List.mem_cons_of_mem _ hd2))
    obtain ⟨ih1, ih2⟩ := ih r1 hpres1
    rw [List.foldl_cons, hstep]
    constructor
    · intro c i
      have hWcons : WmassPos ((f, lb) :: rest) c i =
          (if lb = c then wpos f i else 0) + WmassPos rest c i := by
        rw [WmassPos, List.map_cons, List.sum_cons, WmassPos]
      by_cases hclb : lb = c
      · subst hclb
        have hr1i : wlookup r1.1 lb i =
            if 0 < f.getD i 0 then
              some ((wlookup wc lb i).getD 0 + f.getD i 0)
            else wlookup wc lb i := by
          by_cases hi : i < f.length
          · exact he i (List.mem_range.mpr hi)
          · have hz : f.getD i 0 = 0 :=
              List.getD_eq_default _ _ (Nat.le_of_not_lt hi)
            rw [hd i (fun hm => hi (List.mem_range.mp hm)), hz,
              if_neg (lt_irrefl 0)]
        rw [ih1 lb i, hWcons, if_pos rfl]
        by_cases hfi : 0 < f.getD i 0
        · have hwp : wpos f i = f.getD i 0 := if_pos hfi
          rw [hr1i, if_pos hfi, hwp]
          have hcond : 0 < f.getD i 0 + WmassPos rest lb i :=
            add_pos_of_pos_of_nonneg hfi (WmassPos_nonneg _ _ _)
          rw [if_pos hcond]
          by_cases hWr : 0 < WmassPos rest lb i
          · rw [if_pos hWr]
            simp only [Option.getD_some]
            congr 1
            ring
          · have hW0 : WmassPos rest lb i = 0 :=
              le_antisymm (not_lt.mp hWr) (WmassPos_nonneg _ _ _)
            rw [if_neg hWr, hW0, add_zero]
        · have hwp : wpos f i = 0 := if_neg hfi
          rw [hr1i, if_neg hfi, hwp, zero_add]
      · have hne : ¬ (lb = c) := hclb
        have hr1c : wlookup r1.1 c i = wlookup wc c i := by
          rw [wlookup, ha c (fun hh => hne hh.symm), wlookup]
        rw [ih1 c i, hWcons, if_neg hne, zero_add, hr1c]
    · intro c t0 ht0
      have hTcons : TmassPos ((f, lb) :: rest) c =
          (if lb = c then tpos f else 0) + TmassPos rest c := by
        rw [TmassPos, List.map_cons, List.sum_cons, TmassPos]
      by_cases hclb : lb = c
      · subst hclb
        have ht1 : alookup lb r1.2 = some (t0 + tpos f) := hc t0 ht0
        rw [ih2 lb _ ht1, hTcons, if_pos rfl]
        congr 1
        ring
      · have hne : ¬ (lb = c) := hclb
        have ht1 : alookup c r1.2 = some t0 := by
          rw [hb c (fun hh => hne hh.symm)]
          exact ht0
        rw [ih2 c _ ht1, hTcons, if_neg hne, zero_add]

theorem docStep_fold_keys (f : List ℚ) (lb : String) :
    ∀ (idxs : List ℕ) (wc : List (String × List (ℕ × ℚ)))
      (tw : List (String × ℚ)),
      KeysNodup wc → (∀ p ∈ wc, KeysNodup p.2) →
      KeysNodup (idxs.foldl (NBCdocStep f lb) (wc, tw)).1 ∧
        ∀ p ∈ (idxs.foldl (NBCdocStep f lb) (wc, tw)).1, KeysNodup p.2 := by
  intro idxs
  induction idxs with
  | nil =>
    intro wc tw h1 h2
    exact ⟨h1, h2⟩
  | cons j t ih =>
    intro wc tw h1 h2
    rw [List.foldl_cons]
    rw [NBCdocStep]
    split
    · refine ih _ _ (keysNodup_aupsert _ _ _ h1) ?_
      refine aupsert_values _ _ _ h2 ?_
      intro o ho
      cases o with
      | none =>
        refine keysNodup_aupsert _ _ _ ?_
        simp [KeysNodup]
      | some v =>
        exact keysNodup_aupsert _ _ _ (ho v rfl)
    · exact ih _ _ h1 h2

theorem processDocs_keys :
    ∀ (docs : List (List ℚ × String))
      (acc : List (String × List (ℕ × ℚ)) × List (String × ℚ)),
      KeysNodup acc.1 → (∀ p ∈ acc.1, KeysNodup p.2) →
      KeysNodup (docs.foldl NBCprocessDoc acc).1 ∧
        ∀ p ∈ (docs.foldl NBCprocessDoc acc).1, KeysNodup p.2 := by
  intro docs
  induction docs with
  | nil =>
    intro acc h1 h2
    exact ⟨h1, h2⟩
  | cons d rest ih =>
    intro acc h1 h2
    obtain ⟨wc, tw⟩ := acc
    obtain ⟨f, lb⟩ := d
    rw [List.foldl_cons]
    obtain ⟨k1, k2⟩ := docStep_fold_keys f lb (List.range f.length) wc tw h1 h2
    exact ih _ k1 k2

/-- The effect of one class of step 3 on that class's entry map: every
    seen word index gets its smoothed log value. -/
def entriesApply (g : ℕ × ℚ → ℚ) (entries : List (ℕ × ℚ))
    (em : List (ℕ × ℚ)) : List (ℕ × ℚ) :=
  entries.foldl (fun em2 ic => aupsert ic.1 (fun _ => g ic) em2) em

theorem alookup_of_mem_nodup {α β : Type} [DecidableEq α] {k : α} {v : β}
    {l : List (α × β)} (hnd : KeysNodup l) (hmem : (k, v) ∈ l) :
    alookup k l = some v := by
  induction l with
  | nil => cases hmem
  | cons p t ih =>
    obtain ⟨a, b⟩ := p
    rw [KeysNodup, List.map_cons, List.nodup_cons] at hnd
    rcases List.mem_cons.mp hmem with heq | hmem2
    · cases heq
      rw [alookup, if_pos rfl]
    · have hak : a ≠ k := by
        intro hh
        subst hh
        exact hnd.1 (List.mem_map.mpr ⟨(a, v), hmem2, rfl⟩)
      rw [alookup, if_neg hak]
      exact ih hnd.2 hmem2

theorem liklStep_lookup (log : ℚ → ℚ) (alpha : ℚ) (V : ℕ)
    (twic : List (String × ℚ)) (cls : String) :
    ∀ (entries : List (ℕ × ℚ)) (m : List (String × List (ℕ × ℚ))),
      (∀ c, c ≠ cls →
        alookup c (NBCliklStep log alpha V twic m (cls, entries)) = alookup c m) ∧
      (entries = [] →
        alookup cls (NBCliklStep log alpha V twic m (cls, entries)) =
          alookup cls m) ∧
      (entries ≠ [] →
        alookup cls (NBCliklStep log alpha V twic m (cls, entries)) =
          some (entriesApply
            (fun ic => log ((ic.2 + alpha) /
              ((alookup cls twic).getD 0 + alpha * (V : ℚ))))
            entries ((alookup cls m).getD []))) := by
  intro entries
  induction entries with
  | nil =>
    intro m
    exact ⟨fun c _ => rfl, fun _ => rfl, fun h => absurd rfl h⟩
  | cons ic rest ih =>
    intro m
    have hfold : NBCliklStep log alpha V twic m (cls, ic :: rest) =
        NBCliklStep log alpha V twic
          (aupsert cls
            (fun o => aupsert ic.1
              (fun _ => log ((ic.2 + alpha) /
                ((alookup cls twic).getD 0 + alpha * (V : ℚ))))
              (o.getD []))
            m)
          (cls, rest) := by
      rw [NBCliklStep, NBCliklStep, List.foldl_cons]
    set m1 := aupsert cls
      (fun o => aupsert ic.1
        (fun _ => log ((ic.2 + alpha) /
          ((alookup cls twic).getD 0 + alpha * (V : ℚ))))
        (o.getD []))
      m with hm1
    obtain ⟨iha, ihb, ihc⟩ := ih m1
    have hm1cls : alookup cls m1 =
        some (aupsert ic.1
          (fun _ => log ((ic.2 + alpha) /
            ((alookup cls twic).getD 0 + alpha * (V : ℚ))))
          ((alookup cls m).getD [])) := by
      rw [hm1, alookup_aupsert_self]
    refine ⟨?_, fun h => absurd h (List.cons_ne_nil _ _), fun _ => ?_⟩
    · intro c hc
      rw [hfold, iha c hc, hm1, alookup_aupsert_ne _ _ hc]
    · rw [hfold]
      by_cases hrest : rest = []
      · rw [ihb hrest, hm1cls]
        subst hrest
        rfl
      · rw [ihc hrest, hm1cls, Option.getD_some]
        rw [entriesApply, entriesApply, List.foldl_cons]

theorem entriesApply_lookup (g : ℕ × ℚ → ℚ) :
    ∀ (entries : List (ℕ × ℚ)), KeysNodup entries →
    ∀ (em : List (ℕ × ℚ)) (i : ℕ),
      alookup i (entriesApply g entries em) =
        (match alookup i entries with
         | some w => some (g (i, w))
         | none => alookup i em) := by
  intro entries
  induction entries with
  | nil =>
    intro _ em i
    rfl
  | cons jw rest ih =>
    intro hnd em i
    obtain ⟨j, w⟩ := jw
    rw [KeysNodup, List.map_cons, List.nodup_cons] at hnd
    have hfold : entriesApply g ((j, w) :: rest) em =
        entriesApply g rest (aupsert j (fun _ => g (j, w)) em) := by
      rw [entriesApply, entriesApply, List.foldl_cons]
    rw [hfold, ih hnd.2]
    by_cases hij : j = i
    · subst hij
      have hrest : alookup j rest = none := by
        rw [alookup_eq_none_iff]
        exact hnd.1
      rw [hrest, alookup, if_pos rfl, alookup_aupsert_self]
    · rw [alookup, if_neg hij]
      cases hr : alookup i rest with
      | some w2 => rfl
      | none =>
        rw [alookup_aupsert_ne _ _ (fun hh => hij hh.symm)]

theorem liklFold_lookup (log : ℚ → ℚ) (alpha : ℚ) (V : ℕ)
    (twic : List (String × ℚ)) :
    ∀ (wc : List (String × List (ℕ × ℚ))), KeysNodup wc →
    ∀ (base : List (String × List (ℕ × ℚ))) (c : String),
      (alookup c wc = none →
        alookup c (wc.foldl (NBCliklStep log alpha V twic) base) =
          alookup c base) ∧
      (∀ entries, alookup c wc = some entries → entries = [] →
        alookup c (wc.foldl (NBCliklStep log alpha V twic) base) =
          alookup c base) ∧
      (∀ entries, alookup c wc = some entries → entries ≠ [] →
        alookup c (wc.foldl (NBCliklStep log alpha V twic) base) =
          some (entriesApply
            (fun ic => log ((ic.2 + alpha) /
              ((alookup c twic).getD 0 + alpha * (V : ℚ))))
            entries ((alookup c base).getD []))) := by
  intro wc
  induction wc with
  | nil =>
    intro _ base c
    refine ⟨fun _ => rfl, ?_, ?_⟩
    · intro entries h _
      simp [alookup] at h
    · intro entries h _
      simp [alookup] at h
  | cons p rest ih =>
    intro hnd base c
    obtain ⟨cls, entries⟩ := p
    rw [KeysNodup, List.map_cons, List.nodup_cons] at hnd
    obtain ⟨sa, sb, sc⟩ := liklStep_lookup log alpha V twic cls entries base
    by_cases hccls : c = cls
    · subst hccls
      have hcrest : alookup c rest = none := by
        rw [alookup_eq_none_iff]
        exact hnd.1
      obtain ⟨ra, _, _⟩ := ih hnd.2 (NBCliklStep log alpha V twic base (c, entries)) c
      refine ⟨?_, ?_, ?_⟩
      · intro h
        rw [alookup, if_pos rfl] at h
        cases h
      · intro entries2 hsome hnil
        rw [alookup, if_pos rfl] at hsome
        cases hsome
        rw [List.foldl_cons, ra hcrest, sb hnil]
      · intro entries2 hsome hnotnil
        rw [alookup, if_pos rfl] at hsome
        cases hsome
        rw [List.foldl_cons, ra hcrest, sc hnotnil]
    · have hlkc : alookup c ((cls, entries) :: rest) = alookup c rest := by
        rw [alookup, if_neg (fun hh => hccls hh.symm)]
      obtain ⟨ra, rb, rc⟩ := ih hnd.2 (NBCliklStep log alpha V twic base (cls, entries)) c
      have hbase : alookup c (NBCliklStep log alpha V twic base (cls, entries)) =
          alookup c base := sa c hccls
      refine ⟨?_, ?_, ?_⟩
      · intro h
        rw [hlkc] at h
        rw [List.foldl_cons, ra h, hbase]
      · intro entries2 hsome hnil
        rw [hlkc] at hsome
        rw [List.foldl_cons, rb entries2 hsome hnil, hbase]
      · intro entries2 hsome hnotnil
        rw [hlkc] at hsome
        rw [List.foldl_cons, rc entries2 hsome hnotnil, hbase]

theorem lookupLik_eq (s : NBCState) (cls : String) (i : ℕ) (m : List (ℕ × ℚ))
    (hm : alookup cls s.log_likelihoods = some m) :
    NBC.lookupLik s cls i =
      (match alookup i m with
       | some v => some v
       | none => alookup cls s.default_log_likelihood) := by
  unfold NBC.lookupLik
  rw [hm]

/-- Characterization of the state produced by the post-validation part of
    `NaiveBayesClassifier::train`: the class list is the sorted set of the
    labels, `vocabulary_size_` is the supplied V, every class has a prior,
    its default log likelihood is `log(alpha / (T(c) + alpha·V))`, and for
    every word index the explicit-entry-or-default lookup used by
    `predict` yields `log((W(c,i) + alpha) / (T(c) + alpha·V))`, where
    `W` and `T` are the strictly-positive-entry masses accumulated by
    step 2. -/
theorem trainCore_char (log : ℚ → ℚ) (s : NBCState) (features : List (List ℚ))
    (labels : List String) (V : ℕ) :
    (NBC.trainCore log s features labels V).classes =
      labels.foldl (fun cs l => insertSorted l cs) [] ∧
    (NBC.trainCore log s features labels V).vocabulary_size = V ∧
    ∀ c ∈ (NBC.trainCore log s features labels V).classes,
      (alookup c (NBC.trainCore log s features labels V).class_priors).isSome ∧
      (alookup c (NBC.trainCore log s features labels V).default_log_likelihood =
        some (log (s.alpha /
          (TmassPos (features.zip labels) c + s.alpha * (V : ℚ))))) ∧
      ∀ i, NBC.lookupLik (NBC.trainCore log s features labels V) c i =
        some (log ((WmassPos (features.zip labels) c i + s.alpha) /
          (TmassPos (features.zip labels) c + s.alpha * (V : ℚ)))) := by
  set classes := labels.foldl (fun cs l => insertSorted l cs) [] with hclasses
  set class_counts := labels.foldl
    (fun m l => aupsert l (fun o => o.getD 0 + 1) m)
    ([] : List (String × ℕ)) with hcc
  set twic0 := classes.foldl
    (fun m c => aupsert c (fun _ => (0 : ℚ)) m) s.total_words_in_class with htwic0
  set ll0 := classes.foldl
    (fun m c => aupsert c (fun _ => ([] : List (ℕ × ℚ))) m)
    s.log_likelihoods with hll0
  set step2 := (features.zip labels).foldl NBCprocessDoc
    (([] : List (String × List (ℕ × ℚ))), twic0) with hstep2
  have hfc : (NBC.trainCore log s features labels V).classes = classes := rfl
  have hfv : (NBC.trainCore log s features labels V).vocabulary_size = V := rfl
  have hfp : (NBC.trainCore log s features labels V).class_priors =
      classes.foldl
        (fun m c =>
          aupsert c
            (fun _ =>
              log ((((alookup c class_counts).getD 0 : ℕ) : ℚ) /
                (features.length : ℚ)))
            m)
        s.class_priors := rfl
  have hft : (NBC.trainCore log s features labels V).total_words_in_class =
      step2.2 := rfl
  have hfd : (NBC.trainCore log s features labels V).default_log_likelihood =
      classes.foldl
        (fun m c =>
          aupsert c
            (fun _ =>
              log (s.alpha /
                ((alookup c step2.2).getD 0 + s.alpha * (V : ℚ))))
            m)
        s.default_log_likelihood := rfl
  have hfl : (NBC.trainCore log s features labels V).log_likelihoods =
      step2.1.foldl (NBCliklStep log s.alpha V step2.2) ll0 := rfl
  have hpres : ∀ d ∈ features.zip labels, (alookup d.2 twic0).isSome := by
    intro d hd
    have hd2 : d.2 ∈ labels := (List.of_mem_zip hd).2
    have hdc : d.2 ∈ classes := by
      rw [hclasses]
      exact (mem_classes_foldl _ labels []).mpr (Or.inl hd2)
    rw [htwic0,
      alookup_foldl_mem (fun _ => (0 : ℚ)) classes s.total_words_in_class hdc]
    rfl
  obtain ⟨hWs, hTs⟩ := processDocs_spec (features.zip labels) ([], twic0) hpres
  obtain ⟨hknd, hvnd⟩ := processDocs_keys (features.zip labels) ([], twic0)
    (by simp [KeysNodup]) (by intro p hp; cases hp)
  refine ⟨hfc, hfv, ?_⟩
  intro c hcmem
  rw [hfc] at hcmem
  have htw0c : alookup c twic0 = some 0 := by
    rw [htwic0,
      alookup_foldl_mem (fun _ => (0 : ℚ)) classes s.total_words_in_class hcmem]
  have htwc : alookup c step2.2 =
      some (TmassPos (features.zip labels) c) := by
    rw [hstep2]
    have h := hTs c 0 htw0c
    rw [zero_add] at h
    exact h
  have hll0c : alookup c ll0 = some [] := by
    rw [hll0,
      alookup_foldl_mem (fun _ => ([] : List (ℕ × ℚ))) classes s.log_likelihoods
        hcmem]
  have hWc : ∀ i, wlookup step2.1 c i =
      (if 0 < WmassPos (features.zip labels) c i then
        some (WmassPos (features.zip labels) c i)
      else none) := by
    intro i
    rw [hstep2]
    have h := hWs c i
    have hbase : wlookup ([] : List (String × List (ℕ × ℚ))) c i = none := rfl
    rw [hbase] at h
    simpa using h
  refine ⟨?_, ?_, ?_⟩
  · rw [hfp,
      alookup_foldl_mem
        (fun c =>
          log ((((alookup c class_counts).getD 0 : ℕ) : ℚ) /
            (features.length : ℚ)))
        classes s.class_priors hcmem]
    rfl
  · rw [hfd,
      alookup_foldl_mem
        (fun c =>
          log (s.alpha / ((alookup c step2.2).getD 0 + s.alpha * (V : ℚ))))
        classes s.default_log_likelihood hcmem, htwc]
    rfl
  · intro i
    have hdefault : alookup c
        (NBC.trainCore log s features labels V).default_log_likelihood =
        some (log (s.alpha /
          (TmassPos (features.zip labels) c + s.alpha * (V : ℚ)))) := by
      rw [hfd,
        alookup_foldl_mem
          (fun c =>
            log (s.alpha / ((alookup c step2.2).getD 0 + s.alpha * (V : ℚ))))
          classes s.default_log_likelihood hcmem, htwc]
      rfl
    obtain ⟨fa, fb, fc2⟩ :=
      liklFold_lookup log s.alpha V step2.2 step2.1 hknd ll0 c
    cases hwc : alookup c step2.1 with
    | none =>
      have hwl : wlookup step2.1 c i = none := by
        rw [wlookup, hwc]
        rfl
      have hW0 : WmassPos (features.zip labels) c i = 0 := by
        have h2 := hWc i
        rw [hwl] at h2
        by_cases hpos : 0 < WmassPos (features.zip labels) c i
        · rw [if_pos hpos] at h2
          cases h2
        · exact le_antisymm (not_lt.mp hpos) (WmassPos_nonneg _ _ _)
      have hllc : alookup c
          (NBC.trainCore log s features labels V).log_likelihoods = some [] := by
        rw [hfl, fa hwc]
        exact hll0c
      have hli : NBC.lookupLik (NBC.trainCore log s features labels V) c i =
          alookup c (NBC.trainCore log s features labels V).default_log_likelihood := by
        rw [lookupLik_eq _ c i [] hllc]
        rfl
      rw [hli, hdefault, hW0, zero_add]
    | some entries =>
      by_cases hent : entries = []
      · subst hent
        have hwl : wlookup step2.1 c i = none := by
          rw [wlookup, hwc]
          rfl
        have hW0 : WmassPos (features.zip labels) c i = 0 := by
          have h2 := hWc i
          rw [hwl] at h2
          by_cases hpos : 0 < WmassPos (features.zip labels) c i
          · rw [if_pos hpos] at h2
            cases h2
          · exact le_antisymm (not_lt.mp hpos) (WmassPos_nonneg _ _ _)
        have hllc : alookup c
            (NBC.trainCore log s features labels V).log_likelihoods = some [] := by
          rw [hfl, fb [] hwc rfl]
          exact hll0c
        have hli : NBC.lookupLik (NBC.trainCore log s features labels V) c i =
            alookup c (NBC.trainCore log s features labels V).default_log_likelihood := by
          rw [lookupLik_eq _ c i [] hllc]
          rfl
        rw [hli, hdefault, hW0, zero_add]
      · have hgoal := fc2 entries hwc hent
        rw [hll0c, Option.getD_some] at hgoal
        have hllc : alookup c
            (NBC.trainCore log s features labels V).log_likelihoods =
            some (entriesApply
              (fun ic => log ((ic.2 + s.alpha) /
                ((alookup c step2.2).getD 0 + s.alpha * (V : ℚ))))
              entries []) := by
          rw [hfl]
          exact hgoal
        have hend : KeysNodup entries := hvnd (c, entries) (alookup_mem hwc)
        have hlk := entriesApply_lookup
          (fun ic => log ((ic.2 + s.alpha) /
            ((alookup c step2.2).getD 0 + s.alpha * (V : ℚ))))
          entries hend [] i
        cases hie : alookup i entries with
        | some w =>
          have hwl : wlookup step2.1 c i = some w := by
            rw [wlookup, hwc, Option.some_bind, hie]
          have h2 := hWc i
          rw [hwl] at h2
          by_cases hpos : 0 < WmassPos (features.zip labels) c i
          · rw [if_pos hpos] at h2
            have hw : w = WmassPos (features.zip labels) c i := by
              injection h2
            have hli : NBC.lookupLik (NBC.trainCore log s features labels V) c i =
                some (log ((w + s.alpha) /
                  ((alookup c step2.2).getD 0 + s.alpha * (V : ℚ)))) := by
              rw [lookupLik_eq _ c i _ hllc, hlk, hie]
            rw [htwc, Option.getD_some, hw] at hli
            exact hli
          · rw [if_neg hpos] at h2
            cases h2
        | none =>
          have hwl : wlookup step2.1 c i = none := by
            rw [wlookup, hwc, Option.some_bind, hie]
          have hW0 : WmassPos (features.zip labels) c i = 0 := by
            have h2 := hWc i
            rw [hwl] at h2
            by_cases hpos : 0 < WmassPos (features.zip labels) c i
            · rw [if_pos hpos] at h2
              cases h2
            · exact le_antisymm (not_lt.mp hpos) (WmassPos_nonneg _ _ _)
          have hli : NBC.lookupLik (NBC.trainCore log s features labels V) c i =
              alookup c (NBC.trainCore log s features labels V).default_log_likelihood := by
            rw [lookupLik_eq _ c i _ hllc, hlk, hie]
            rfl
          rw [hli, hdefault, hW0, zero_add]

/-- The accumulated mass of feature `i` over the class-`c` training
    documents, as the claim states it: `W(c,i) = Σ value at feature i
    across training docs of class c`. -/
def Wmass (features : List (List ℚ)) (labels : List String) (c : String)
    (i : ℕ) : ℚ :=
  ((features.zip labels).map (fun fl => if fl.2 = c then fl.1.getD i 0 else 0)).sum

/-- The total class-`c` feature mass, as the claim states it:
    `T(c) = Σ over class-c docs of the sum of all feature values`. -/
def Tmass (features : List (List ℚ)) (labels : List String) (c : String) : ℚ :=
  ((features.zip labels).map (fun fl => if fl.2 = c then fl.1.sum else 0)).sum

theorem sum_range_getD (xs : List ℚ) :
    ((List.range xs.length).map (fun i => xs.getD i 0)).sum = xs.sum := by
  induction xs with
  | nil => rfl
  | cons x t ih =>
    rw [List.length_cons, List.range_succ_eq_map, List.map_cons, List.map_map,
      List.sum_cons]
    have hmap : (List.range t.length).map
        ((fun i => (x :: t).getD i 0) ∘ Nat.succ) =
        (List.range t.length).map (fun i => t.getD i 0) :=
      List.map_congr_left (fun a _ => rfl)
    rw [hmap, ih, List.sum_cons]
    rfl

theorem wpos_eq_getD (f : List ℚ) (hf : ∀ x ∈ f, 0 ≤ x) (i : ℕ) :
    wpos f i = f.getD i 0 := by
  rw [wpos]
  split
  · rfl
  · rename_i hneg
    exact (le_antisymm (not_lt.mp hneg) (getD_nonneg_of_forall f hf i)).symm

theorem tpos_eq_sum (f : List ℚ) (hf : ∀ x ∈ f, 0 ≤ x) : tpos f = f.sum := by
  rw [tpos]
  have hmap : (List.range f.length).map (wpos f) =
      (List.range f.length).map (fun i => f.getD i 0) :=
    List.map_congr_left (fun a _ => wpos_eq_getD f hf a)
  rw [hmap, sum_range_getD]

theorem WmassPos_eq_Wmass (features : List (List ℚ)) (labels : List String)
    (hnn : ∀ f ∈ features, ∀ x ∈ f, 0 ≤ x) (c : String) (i : ℕ) :
    WmassPos (features.zip labels) c i = Wmass features labels c i := by
  rw [WmassPos, Wmass]
  congr 1
  refine List.map_congr_left ?_
  intro fl hfl
  have hf : ∀ x ∈ fl.1, 0 ≤ x := hnn fl.1 (List.of_mem_zip hfl).1
  split
  · exact wpos_eq_getD fl.1 hf i
  · rfl

theorem TmassPos_eq_Tmass (features : List (List ℚ)) (labels : List String)
    (hnn : ∀ f ∈ features, ∀ x ∈ f, 0 ≤ x) (c : String) :
    TmassPos (features.zip labels) c = Tmass features labels c := by
  rw [TmassPos, Tmass]
  congr 1
  refine List.map_congr_left ?_
  intro fl hfl
  have hf : ∀ x ∈ fl.1, 0 ≤ x := hnn fl.1 (List.of_mem_zip hfl).1
  split
  · exact tpos_eq_sum fl.1 hf
  · rfl

theorem train_success_eq (log : ℚ → ℚ) (s : NBCState) (features : List (List ℚ))
    (labels : List String) (V : ℕ) (s2 : NBCState)
    (htr : NBC.train log s features labels V = (none, s2)) :
    s2 = NBC.trainCore log s features labels V ∧
    features ≠ [] ∧ features.length = labels.length ∧ V ≠ 0 := by
  by_cases h1 : features.length = 0 ∨ features.length ≠ labels.length
  · rw [NBC.train, if_pos h1] at htr
    exact absurd (congrArg Prod.fst htr) (by simp)
  · rw [NBC.train, if_neg h1] at htr
    by_cases h2 : V = 0
    · rw [if_pos h2] at htr
      exact absurd (congrArg Prod.fst htr) (by simp)
    · rw [if_neg h2] at htr
      push_neg at h1
      obtain ⟨hne, heq⟩ := h1
      have hs2 : s2 = NBC.trainCore log s features labels V :=
        (congrArg Prod.snd htr).symm
      refine ⟨hs2, ?_, heq, h2⟩
      intro hf
      subst hf
      exact hne rfl

/-- C6: after a successful training call, for every trained class `c` and
    every feature index `i`, the likelihood lookup used by `predict`
    (explicit sparse entry when it exists, otherwise the per-class
    default) yields `log((W(c,i) + alpha) / (T(c) + alpha·V))`, and the
    stored per-class default equals `log(alpha / (T(c) + alpha·V))` — the
    same formula with `W(c,i) = 0`.  `alpha` is the engine's (sanitized)
    smoothing parameter; the feature values are assumed non-negative, as
    the extractor produces them. -/
theorem nbc_likelihood_formula (log : ℚ → ℚ) (s : NBCState)
    (features : List (List ℚ)) (labels : List String) (V : ℕ) (s2 : NBCState)
    (htr : NBC.train log s features labels V = (none, s2))
    (hnn : ∀ f ∈ features, ∀ x ∈ f, 0 ≤ x) :
    ∀ c ∈ s2.classes,
      (alookup c s2.default_log_likelihood =
        some (log (s.alpha / (Tmass features labels c + s.alpha * (V : ℚ))))) ∧
      ∀ i, NBC.lookupLik s2 c i =
        some (log ((Wmass features labels c i + s.alpha) /
          (Tmass features labels c + s.alpha * (V : ℚ)))) := by
  obtain ⟨hs2, _, _, _⟩ := train_success_eq log s features labels V s2 htr
  subst hs2
  obtain ⟨_, _, hper⟩ := trainCore_char log s features labels V
  intro c hc
  obtain ⟨_, hdef, hlik⟩ := hper c hc
  constructor
  · rw [← TmassPos_eq_Tmass features labels hnn c]
    exact hdef
  · intro i
    rw [← TmassPos_eq_Tmass features labels hnn c,
      ← WmassPos_eq_Wmass features labels hnn c i]
    exact hlik i

theorem nbc_likelihood_formula_witness :
    (NBC.train id (NBC.init 1) [[1]] ["p"] 1 =
      (none, (NBC.train id (NBC.init 1) [[1]] ["p"] 1).2)) ∧
    (∀ f ∈ [[(1 : ℚ)]], ∀ x ∈ f, 0 ≤ x) ∧
    ∀ c ∈ (NBC.train id (NBC.init 1) [[1]] ["p"] 1).2.classes,
      (alookup c (NBC.train id (NBC.init 1) [[1]] ["p"] 1).2.default_log_likelihood =
        some ((NBC.init 1).alpha /
          (Tmass [[1]] ["p"] c + (NBC.init 1).alpha * ((1 : ℕ) : ℚ)))) ∧
      ∀ i, NBC.lookupLik (NBC.train id (NBC.init 1) [[1]] ["p"] 1).2 c i =
        some ((Wmass [[1]] ["p"] c i + (NBC.init 1).alpha) /
          (Tmass [[1]] ["p"] c + (NBC.init 1).alpha * ((1 : ℕ) : ℚ))) := by
  have h1 : NBC.train id (NBC.init 1) [[1]] ["p"] 1 =
      (none, (NBC.train id (NBC.init 1) [[1]] ["p"] 1).2) := by
    refine Prod.ext ?_ rfl
    norm_num [NBC.train]
  have h2 : ∀ f ∈ [[(1 : ℚ)]], ∀ x ∈ f, 0 ≤ x := by
    intro f hf x hx
    rw [List.mem_singleton] at hf
    subst hf
    rw [List.mem_singleton] at hx
    subst hx
    norm_num
  exact ⟨h1, h2, nbc_likelihood_formula id (NBC.init 1) [[1]] ["p"] 1 _ h1 h2⟩

/-- C7: `predict` throws `notTrained` exactly on an engine whose class
    list is empty (the untrained state, which every failed training leaves
    untouched), and on a successfully trained engine it throws
    `dimensionMismatch` exactly when the input length differs from the
    vocabulary size it was trained with, and never throws `notTrained`.
    `predict` is a `const` member: in the embedding it is a pure function
    of the state, so neither failure can change the engine's state. -/
theorem nbc_predict_errors (log : ℚ → ℚ) (s : NBCState) (features : List (List ℚ))
    (labels : List String) (V : ℕ) (s2 : NBCState)
    (htr : NBC.train log s features labels V = (none, s2)) :
    (∀ s3 : NBCState, ∀ v : List ℚ, s3.classes = [] →
      NBC.predict s3 v = Except.error NBCError.notTrained) ∧
    s2.classes ≠ [] ∧
    ∀ v : List ℚ,
      (NBC.predict s2 v = Except.error NBCError.dimensionMismatch ↔ v.length ≠ V) ∧
      NBC.predict s2 v ≠ Except.error NBCError.notTrained := by
  obtain ⟨hs2, hne, hlen, _⟩ := train_success_eq log s features labels V s2 htr
  subst hs2
  obtain ⟨hc, hv, _⟩ := trainCore_char log s features labels V
  have hlabne : labels ≠ [] := by
    intro hl
    apply hne
    apply List.length_eq_zero.mp
    rw [hlen, hl]
    rfl
  have hcls : (NBC.trainCore log s features labels V).classes ≠ [] := by
    rw [hc]
    exact classes_ne_nil labels hlabne
  have hemp : ¬ ((NBC.trainCore log s features labels V).classes.isEmpty = true) := by
    simp only [List.isEmpty_iff]
    exact hcls
  have hnotboth : ∀ v : List ℚ, v.length = V →
      NBC.predict (NBC.trainCore log s features labels V) v ≠
        Except.error NBCError.dimensionMismatch ∧
      NBC.predict (NBC.trainCore log s features labels V) v ≠
        Except.error NBCError.notTrained := by
    intro v hvl
    rw [NBC.predict, if_neg hemp, if_neg (by rw [hv]; intro h; exact h hvl)]
    cases hf : (NBC.trainCore log s features labels V).classes.foldl
        (NBC.predictStep (NBC.trainCore log s features labels V) v) (some none) with
    | none => exact ⟨fun h => (nomatch h), fun h => (nomatch h)⟩
    | some ob =>
      cases ob with
      | none => exact ⟨fun h => (nomatch h), fun h => (nomatch h)⟩
      | some b => exact ⟨fun h => (nomatch h), fun h => (nomatch h)⟩
  refine ⟨?_, hcls, ?_⟩
  · intro s3 v h3
    rw [NBC.predict, if_pos (by rw [h3]; rfl)]
  · intro v
    refine ⟨⟨?_, ?_⟩, ?_⟩
    · intro hp
      by_contra hvl
      exact (hnotboth v hvl).1 hp
    · intro hvl
      rw [NBC.predict, if_neg hemp, if_pos (by rw [hv]; exact hvl)]
    · by_cases hvl : v.length = V
      · exact (hnotboth v hvl).2
      · rw [NBC.predict, if_neg hemp, if_pos (by rw [hv]; exact hvl)]
        intro h
        nomatch h

theorem nbc_predict_errors_witness :
    (NBC.train id (NBC.init 1) [[1]] ["p"] 1 =
      (none, (NBC.train id (NBC.init 1) [[1]] ["p"] 1).2)) ∧
    NBC.predict (NBC.init 1) [] = Except.error NBCError.notTrained ∧
    (NBC.predict (NBC.train id (NBC.init 1) [[1]] ["p"] 1).2 [1, 2] =
      Except.error NBCError.dimensionMismatch ↔ ([(1 : ℚ), 2].length ≠ 1)) := by
  have h1 : NBC.train id (NBC.init 1) [[1]] ["p"] 1 =
      (none, (NBC.train id (NBC.init 1) [[1]] ["p"] 1).2) := by
    refine Prod.ext ?_ rfl
    norm_num [NBC.train]
  have h := nbc_predict_errors id (NBC.init 1) [[1]] ["p"] 1 _ h1
  exact ⟨h1, h.1 (NBC.init 1) [] rfl, (h.2.2 [1, 2]).1⟩

/-- The posterior score `score(c) = prior(c) + Σ_i [value_i > 0] ·
    value_i · logLikelihood-or-default(c, i)` as the claim states it, read
    off the trained engine's tables. -/
def specScore (s : NBCState) (v : List ℚ) (cls : String) : ℚ :=
  (alookup cls s.class_priors).getD 0 +
  ((List.range v.length).map (fun i =>
    if 0 < v.getD i 0 then v.getD i 0 * (NBC.lookupLik s cls i).getD 0 else 0)).sum

theorem scoreStep_fold (s : NBCState) (v : List ℚ) (cls : String)
    (hlik : ∀ i, (NBC.lookupLik s cls i).isSome) :
    ∀ (idxs : List ℕ) (acc : ℚ),
      idxs.foldl (NBC.scoreStep s v cls) (some acc) =
        some (acc + (idxs.map (fun i =>
          if 0 < v.getD i 0 then v.getD i 0 * (NBC.lookupLik s cls i).getD 0
          else 0)).sum) := by
  intro idxs
  induction idxs with
  | nil =>
    intro acc
    simp
  | cons i t ih =>
    intro acc
    rw [List.foldl_cons, List.map_cons, List.sum_cons]
    by_cases hvi : 0 < v.getD i 0
    · have hvi2 : 0 < v[i]?.getD 0 := by
        rw [← List.getD_eq_getElem?_getD]
        exact hvi
      obtain ⟨lk, hlk⟩ := Option.isSome_iff_exists.mp (hlik i)
      have hstep : NBC.scoreStep s v cls (some acc) i =
          some (acc + v.getD i 0 * lk) := by
        simp [NBC.scoreStep, hvi2, hlk]
      rw [hstep, ih, if_pos hvi, hlk]
      simp only [Option.getD_some]
      congr 1
      ring
    · have hvi2 : ¬ 0 < v[i]?.getD 0 := by
        rw [← List.getD_eq_getElem?_getD]
        exact hvi
      have hstep : NBC.scoreStep s v cls (some acc) i = some acc := by
        simp [NBC.scoreStep, hvi2]
      rw [hstep, ih, if_neg hvi, zero_add]

theorem score_eq_spec (s : NBCState) (v : List ℚ) (cls : String)
    (hpr : (alookup cls s.class_priors).isSome)
    (hlik : ∀ i, (NBC.lookupLik s cls i).isSome) :
    NBC.score s v cls = some (specScore s v cls) := by
  obtain ⟨pr, hprv⟩ := Option.isSome_iff_exists.mp hpr
  rw [NBC.score, hprv, Option.some_bind, scoreStep_fold s v cls hlik, specScore,
    hprv, Option.getD_some]

/-- The best-score tracking of the prediction loop, with the score values
    supplied by a pure function. -/
def pureBest (f : String → ℚ) (best : Option (ℚ × String)) (cls : String) :
    Option (ℚ × String) :=
  match best with
  | none => some (f cls, cls)
  | some b => if f cls > b.1 then some (f cls, cls) else some b

theorem predictStep_fold_to_pure (s : NBCState) (v : List ℚ) (f : String → ℚ) :
    ∀ (cs : List String), (∀ c ∈ cs, NBC.score s v c = some (f c)) →
    ∀ (best : Option (ℚ × String)),
      cs.foldl (NBC.predictStep s v) (some best) =
        some (cs.foldl (pureBest f) best) := by
  intro cs
  induction cs with
  | nil =>
    intro _ best
    rfl
  | cons c t ih =>
    intro hs best
    rw [List.foldl_cons, List.foldl_cons]
    have hstep : NBC.predictStep s v (some best) c =
        some (pureBest f best c) := by
      simp only [NBC.predictStep, Option.some_bind, hs c (List.mem_cons_self _ _),
        Option.map_some, pureBest]
      cases best <;> rfl
    rw [hstep]
    exact ih (fun c2 hc2 => hs c2 (List.mem_cons_of_mem _ hc2)) _

theorem pureBest_argmax (f : String → ℚ) :
    ∀ (t : List String) (m : ℚ) (c : String), f c = m →
      ∃ c2, t.foldl (pureBest f) (some (m, c)) = some (f c2, c2) ∧
        ((c2 = c ∧ ∀ x ∈ t, f x ≤ f c) ∨
         (∃ pre suf, t = pre ++ c2 :: suf ∧ f c < f c2 ∧
           (∀ x ∈ t, f x ≤ f c2) ∧ ∀ x ∈ pre, f x < f c2)) := by
  intro t
  induction t with
  | nil =>
    intro m c hm
    refine ⟨c, ?_, Or.inl ⟨rfl, fun x hx => absurd hx (List.not_mem_nil x)⟩⟩
    rw [List.foldl_nil, hm]
  | cons x t ih =>
    intro m c hm
    rw [List.foldl_cons]
    by_cases hx : f x > m
    · have hstep : pureBest f (some (m, c)) x = some (f x, x) := by
        rw [pureBest, if_pos hx]
      rw [hstep]
      obtain ⟨c2, heq, hrel⟩ := ih (f x) x rfl
      refine ⟨c2, heq, Or.inr ?_⟩
      have hcx : f c < f x := by rw [hm]; exact hx
      rcases hrel with ⟨rfl, hall⟩ | ⟨pre, suf, hteq, hlt, hall, hpre⟩
      · refine ⟨[], t, rfl, hcx, ?_, fun y hy => absurd hy (List.not_mem_nil y)⟩
        intro y hy
        rcases List.mem_cons.mp hy with rfl | hyt
        · exact le_refl _
        · exact hall y hyt
      · refine ⟨x :: pre, suf, by rw [hteq, List.cons_append], lt_trans hcx hlt,
          ?_, ?_⟩
        · intro y hy
          rcases List.mem_cons.mp hy with rfl | hyt
          · exact le_of_lt hlt
          · exact hall y hyt
        · intro y hy
          rcases List.mem_cons.mp hy with rfl | hyp
          · exact hlt
          · exact hpre y hyp
    · have hstep : pureBest f (some (m, c)) x = some (m, c) := by
        rw [pureBest, if_neg hx]
      rw [hstep]
      obtain ⟨c2, heq, hrel⟩ := ih m c hm
      have hxc : f x ≤ f c := by
        rw [hm]
        exact not_lt.mp hx
      refine ⟨c2, heq, ?_⟩
      rcases hrel with ⟨rfl, hall⟩ | ⟨pre, suf, hteq, hlt, hall, hpre⟩
      · refine Or.inl ⟨rfl, ?_⟩
        intro y hy
        rcases List.mem_cons.mp hy with rfl | hyt
        · exact hxc
        · exact hall y hyt
      · refine Or.inr ⟨x :: pre, suf, by rw [hteq, List.cons_append], hlt, ?_, ?_⟩
        · intro y hy
          rcases List.mem_cons.mp hy with rfl | hyt
          · exact le_of_lt (lt_of_le_of_lt hxc hlt)
          · exact hall y hyt
        · intro y hy
          rcases List.mem_cons.mp hy with rfl | hyp
          · exact lt_of_le_of_lt hxc hlt
          · exact hpre y hyp

/-- C5 (amended): on a successfully trained engine and an input of the
    trained length, `predict` returns the class maximizing
    `score(c) = prior(c) + Σ_i [value_i > 0] · value_i ·
    logLikelihood-or-default(c, i)`, with ties broken in favour of the
    class that comes first in the engine's internal class ordering
    `classes_` — which is the lexicographically sorted set of the training
    labels (`std::set`), not the first-observation order: every class
    strictly before the returned one in `classes_` has a strictly smaller
    score. -/
theorem nbc_predict_first_sorted_max (log : ℚ → ℚ) (s : NBCState)
    (features : List (List ℚ)) (labels : List String) (V : ℕ) (s2 : NBCState)
    (htr : NBC.train log s features labels V = (none, s2))
    (v : List ℚ) (hv : v.length = V) :
    ∃ c pre suf,
      NBC.predict s2 v = Except.ok c ∧
      s2.classes = pre ++ c :: suf ∧
      (∀ x ∈ s2.classes, specScore s2 v x ≤ specScore s2 v c) ∧
      ∀ x ∈ pre, specScore s2 v x < specScore s2 v c := by
  obtain ⟨hs2, hne, hlen, _⟩ := train_success_eq log s features labels V s2 htr
  subst hs2
  set tc := NBC.trainCore log s features labels V with htc
  obtain ⟨hcf, hvf, hper⟩ := trainCore_char log s features labels V
  have hlabne : labels ≠ [] := by
    intro hl
    apply hne
    apply List.length_eq_zero.mp
    rw [hlen, hl]
    rfl
  have hcls : tc.classes ≠ [] := by
    rw [htc, hcf]
    exact classes_ne_nil labels hlabne
  have hemp : ¬ (tc.classes.isEmpty = true) := by
    simp only [List.isEmpty_iff]
    exact hcls
  have hdim : ¬ (v.length ≠ tc.vocabulary_size) := by
    rw [htc, hvf]
    intro h
    exact h hv
  have hscore : ∀ c ∈ tc.classes, NBC.score tc v c = some (specScore tc v c) := by
    intro c hc
    obtain ⟨hpr, _, hlik⟩ := hper c (by rw [← htc]; exact hc)
    refine score_eq_spec tc v c (by rw [htc]; exact hpr) ?_
    intro i
    rw [htc, hlik i]
    rfl
  obtain ⟨hd, rest, hcl⟩ : ∃ hd rest, tc.classes = hd :: rest := by
    cases hcl2 : tc.classes with
    | nil => exact absurd hcl2 hcls
    | cons a b => exact ⟨a, b, rfl⟩
  have hstep1 : NBC.predictStep tc v (some none) hd =
      some (some (specScore tc v hd, hd)) := by
    simp only [NBC.predictStep, Option.some_bind,
      hscore hd (by rw [hcl]; exact List.mem_cons_self _ _), Option.map_some]
    rfl
  have hfold : tc.classes.foldl (NBC.predictStep tc v) (some none) =
      some (rest.foldl (pureBest (specScore tc v))
        (some (specScore tc v hd, hd))) := by
    rw [hcl, List.foldl_cons, hstep1]
    exact predictStep_fold_to_pure tc v (specScore tc v) rest
      (fun c hcm => hscore c (by rw [hcl]; exact List.mem_cons_of_mem _ hcm)) _
  obtain ⟨c2, heq2, hrel⟩ :=
    pureBest_argmax (specScore tc v) rest (specScore tc v hd) hd rfl
  have hpredict : NBC.predict tc v = Except.ok c2 := by
    rw [NBC.predict, if_neg hemp, if_neg hdim, hfold, heq2]
  rcases hrel with ⟨heqc, hall⟩ | ⟨pre, suf, hteq, hlt, hall, hpre⟩
  · refine ⟨c2, [], rest, hpredict, by rw [hcl, heqc]; rfl, ?_,
      fun x hx => absurd hx (List.not_mem_nil x)⟩
    intro x hx
    rw [hcl] at hx
    rw [heqc]
    rcases List.mem_cons.mp hx with rfl | hxt
    · exact le_refl _
    · exact hall x hxt
  · refine ⟨c2, hd :: pre, suf, hpredict, ?_, ?_, ?_⟩
    · rw [hcl, hteq, List.cons_append]
    · intro x hx
      rw [hcl] at hx
      rcases List.mem_cons.mp hx with rfl | hxt
      · exact le_of_lt hlt
      · exact hall x hxt
    · intro x hx
      rcases List.mem_cons.mp hx with rfl | hxp
      · exact hlt
      · exact hpre x hxp

/-- C5 counterexample: training on labels `["b", "a"]` (so class `b` is
    observed first) with two identical single-feature documents makes both
    classes score identically on the input `[1]`, yet `predict` returns
    `"a"` — the lexicographically first class of the sorted `std::set`
    ordering — not the first-observed class `"b"` that the claim
    requires. -/
theorem nbc_predict_tie_not_first_observed :
    ∃ s2, NBC.train id (NBC.init 1) [[1], [1]] ["b", "a"] 1 = (none, s2) ∧
      s2.classes = ["a", "b"] ∧
      NBC.score s2 [1] "a" = NBC.score s2 [1] "b" ∧
      NBC.predict s2 [1] = Except.ok "a" ∧
      ["b", "a"].headD "" = "b" ∧
      ("a" : String) ≠ "b" := by
  have hab : ("a" : String) ≠ "b" := by decide
  have hba : ("b" : String) ≠ "a" := by decide
  have hlt : ("a" : String) < "b" := by norm_num; decide
  have hnlt : ¬ (("b" : String) < "a") := by norm_num; decide
  refine ⟨(NBC.train id (NBC.init 1) [[1], [1]] ["b", "a"] 1).2,
    Prod.ext ?_ rfl, ?_, ?_, ?_, rfl, hab⟩
  · norm_num [NBC.train]
  · norm_num [NBC.train, NBC.trainCore, NBC.preState, NBC.init, insertSorted,
      hab, hba, hlt, hnlt]
  · norm_num [NBC.train, NBC.trainCore, NBC.preState, NBC.init, insertSorted,
      NBCprocessDoc, NBCdocStep, NBCliklStep, NBC.score, NBC.scoreStep,
      NBC.lookupLik, alookup, aupsert, hab, hba, hlt, hnlt, List.range, List.range.loop]
  · norm_num [NBC.train, NBC.trainCore, NBC.preState, NBC.init, insertSorted,
      NBCprocessDoc, NBCdocStep, NBCliklStep, NBC.predict, NBC.predictStep,
      NBC.score, NBC.scoreStep, NBC.lookupLik, alookup, aupsert, hab, hba, hlt,
      hnlt, List.range, List.range.loop]

theorem nbc_predict_first_sorted_max_witness :
    (NBC.train id (NBC.init 1) [[1], [1]] ["b", "a"] 1 =
      (none, (NBC.train id (NBC.init 1) [[1], [1]] ["b", "a"] 1).2)) ∧
    ([(1 : ℚ)].length = 1) ∧
    ∃ c pre suf,
      NBC.predict (NBC.train id (NBC.init 1) [[1], [1]] ["b", "a"] 1).2 [1] =
        Except.ok c ∧
      (NBC.train id (NBC.init 1) [[1], [1]] ["b", "a"] 1).2.classes =
        pre ++ c :: suf ∧
      (∀ x ∈ (NBC.train id (NBC.init 1) [[1], [1]] ["b", "a"] 1).2.classes,
        specScore (NBC.train id (NBC.init 1) [[1], [1]] ["b", "a"] 1).2 [1] x ≤
        specScore (NBC.train id (NBC.init 1) [[1], [1]] ["b", "a"] 1).2 [1] c) ∧
      ∀ x ∈ pre,
        specScore (NBC.train id (NBC.init 1) [[1], [1]] ["b", "a"] 1).2 [1] x <
        specScore (NBC.train id (NBC.init 1) [[1], [1]] ["b", "a"] 1).2 [1] c := by
  have h1 : NBC.train id (NBC.init 1) [[1], [1]] ["b", "a"] 1 =
      (none, (NBC.train id (NBC.init 1) [[1], [1]] ["b", "a"] 1).2) := by
    refine Prod.ext ?_ rfl
    norm_num [NBC.train]
  exact ⟨h1, rfl,
    nbc_predict_first_sorted_max id (NBC.init 1) [[1], [1]] ["b", "a"] 1 _ h1
      [1] rfl⟩

end Sentiment
